import Mathlib

set_option maxRecDepth 100000

/-!
Verification development for the attendance tracker (`attendance.py`,
supported by the repository's minimal `pandas` stub).  The Python source is
shallowly embedded: every function below is translated from the source file;
machine floats are modelled by exact rationals extended with the IEEE special
values (`inf`, `-inf`, `nan`), which is what the source's `float` arithmetic
propagates through `sum`, `+`, `-` and the order comparisons.  Dates are
modelled by their proleptic-Gregorian ordinal (the value of
`datetime.date.toordinal`), which Python's `date` type is order-isomorphic to;
`date.weekday()` is `(ordinal + 6) % 7` since ordinal 1 (0001-01-01) is a
Monday.  Python's bounded `date` range (year 1..9999 at construction, which the
4-digit `%Y` token already enforces) is not re-checked on the one-day rollover
used for overnight shifts.
-/

/-- Characters removed by Python's `str.strip()` (ASCII whitespace; the rare
unicode space characters are not modelled). -/
def isPySpace (c : Char) : Bool :=
  c = ' ' || c = '\t' || c = '\n' || c = '\r' || c = '\x0b' || c = '\x0c'

/-- Strip `isPySpace` characters from both ends of a character list. -/
def stripChars (l : List Char) : List Char :=
  ((l.dropWhile isPySpace).reverse.dropWhile isPySpace).reverse

/-- Python `str.strip()`. -/
def pyStrip (s : String) : String := ⟨stripChars s.data⟩

/-- Numeric value of a list of decimal digit characters (most significant first). -/
def digitsVal (l : List Char) : Nat :=
  l.foldl (fun a c => 10 * a + (c.toNat - 48)) 0

/-- All characters are decimal digits. -/
def allDigits (l : List Char) : Bool := l.all Char.isDigit

/-- Python float: an exact rational for the finite values together with the
IEEE special values.  Finite values are kept exact rather than rounded to
binary64, which is faithful for every quantity the claims mention. -/
inductive PFloat where
  | fin (q : ℚ)
  | inf
  | ninf
  | nan
deriving DecidableEq, Repr

namespace PFloat

/-- IEEE negation. -/
def neg : PFloat → PFloat
  | fin q => fin (-q)
  | inf => ninf
  | ninf => inf
  | nan => nan

/-- IEEE addition (`inf + -inf = nan`, `nan` absorbs). -/
def add : PFloat → PFloat → PFloat
  | nan, _ => nan
  | _, nan => nan
  | inf, ninf => nan
  | ninf, inf => nan
  | inf, _ => inf
  | _, inf => inf
  | ninf, _ => ninf
  | _, ninf => ninf
  | fin p, fin q => fin (p + q)

/-- IEEE subtraction. -/
def sub (a b : PFloat) : PFloat := add a b.neg

/-- IEEE strict comparison: every comparison with `nan` is false. -/
def lt : PFloat → PFloat → Bool
  | nan, _ => false
  | _, nan => false
  | fin p, fin q => decide (p < q)
  | ninf, ninf => false
  | ninf, _ => true
  | _, ninf => false
  | inf, _ => false
  | _, inf => true

/-- IEEE non-strict comparison: every comparison with `nan` is false. -/
def le : PFloat → PFloat → Bool
  | nan, _ => false
  | _, nan => false
  | fin p, fin q => decide (p ≤ q)
  | ninf, _ => true
  | _, ninf => false
  | _, inf => true
  | inf, _ => false

end PFloat

/-- Python `sum` over a list of floats (initial value `0`). -/
def pySum (l : List PFloat) : PFloat := l.foldl PFloat.add (PFloat.fin 0)

/-- Round half to even on rationals, the tie rule of Python's `round`. -/
def rndHalfEven (q : ℚ) : ℤ :=
  let f := ⌊q⌋
  let r := q - f
  if r < 1/2 then f
  else if 1/2 < r then f + 1
  else if f % 2 = 0 then f else f + 1

/-- Python `round(x, 2)`: decimal rounding of a float to two places; the
special values are returned unchanged. -/
def pround2 : PFloat → PFloat
  | PFloat.fin q => PFloat.fin ((rndHalfEven (100 * q) : ℚ) / 100)
  | PFloat.inf => PFloat.inf
  | PFloat.ninf => PFloat.ninf
  | PFloat.nan => PFloat.nan

/-- Parse the decimal body of a Python float literal (`digits [. digits]
[e [sign] digits]`, at least one mantissa digit).  Underscore separators are
not modelled. -/
def parseDecBody (l : List Char) : Option ℚ :=
  let ip := l.takeWhile Char.isDigit
  let r1 := l.dropWhile Char.isDigit
  let fp := match r1 with
            | '.' :: t => t.takeWhile Char.isDigit
            | _ => []
  let r2 := match r1 with
            | '.' :: t => t.dropWhile Char.isDigit
            | _ => r1
  if ip = [] ∧ fp = [] then Option.none
  else
    let mant : ℚ := (digitsVal ip : ℚ) + (digitsVal fp : ℚ) / ((10 : ℚ) ^ fp.length)
    match r2 with
    | [] => Option.some mant
    | 'e' :: t =>
        let esgn : ℤ := match t with | '-' :: _ => -1 | _ => 1
        let ed := match t with | '-' :: u => u | '+' :: u => u | _ => t
        if ed ≠ [] ∧ allDigits ed then Option.some (mant * (10 : ℚ) ^ (esgn * (digitsVal ed : ℤ)))
        else Option.none
    | _ => Option.none

/-- Python `float(str)`: strip, optional sign, then `inf`, `infinity`, `nan`
(case-insensitive) or a decimal literal.  `Option.none` models the `ValueError`. -/
def pyFloatOfString (s : String) : Option PFloat :=
  let l := (stripChars s.data).map Char.toLower
  let sgnNeg := match l with | '-' :: _ => true | _ => false
  let body := match l with | '-' :: t => t | '+' :: t => t | _ => l
  if body = "inf".data ∨ body = "infinity".data then
    Option.some (if sgnNeg then PFloat.ninf else PFloat.inf)
  else if body = "nan".data then Option.some PFloat.nan
  else match parseDecBody body with
       | Option.some q => Option.some (PFloat.fin (if sgnNeg then -q else q))
       | Option.none => Option.none

/-- Split a character list at every occurrence of `c` (Python `str.split`). -/
def splitCh (c : Char) : List Char → List (List Char)
  | [] => [[]]
  | x :: xs =>
    match splitCh c xs with
    | [] => [[]]
    | a :: rest => if x = c then [] :: a :: rest else (x :: a) :: rest

/-- Validation errors raised by the source via `AttendanceValidationError`,
kept structured (each constructor corresponds to one message in the source). -/
inductive VErr where
  | badTime (text : String)
  | badDate (text : String)
  | negBreak
  | unsupportedBreak
  | notNumeric (field : String)
  | negOvertime
  | negNet
  | excessNet
  | missingColumns (cols : List String)
  | missingRecordColumns (cols : List String)
deriving DecidableEq, Repr

/-- Raw Python exceptions that escape the source uncaught. -/
inductive PyErr where
  | valueError
  | typeError
deriving DecidableEq, Repr

/-- Either a domain validation error or an unclassified Python exception. -/
inductive Err where
  | validation (e : VErr)
  | py (e : PyErr)
deriving DecidableEq, Repr

instance exceptDecEq {e a : Type} [DecidableEq e] [DecidableEq a] :
    DecidableEq (Except e a)
  | Except.error x, Except.error y =>
    if h : x = y then isTrue (by rw [h]) else isFalse (fun hh => h (by cases hh; rfl))
  | Except.error _, Except.ok _ => isFalse (fun hh => Except.noConfusion hh)
  | Except.ok _, Except.error _ => isFalse (fun hh => Except.noConfusion hh)
  | Except.ok x, Except.ok y =>
    if h : x = y then isTrue (by rw [h]) else isFalse (fun hh => h (by cases hh; rfl))

/-- Model of `parse_time`: `datetime.strptime(text.strip(), "%H:%M")`.  The `%H` and
`%M` tokens each match one or two digits with the value bounded by 23 resp.
59 (CPython `_strptime` regexes `2[0-3]|[0-1]\d|\d` and `[0-5]\d|\d`); the
colon is literal and the whole stripped string must be consumed.  Returns the
(hour, minute) pair of the parsed time. -/
def parse_time (s : String) : Except Err (Nat × Nat) :=
  match splitCh ':' (stripChars s.data) with
  | [a, b] =>
      if allDigits a ∧ (a.length = 1 ∨ a.length = 2) ∧ digitsVal a ≤ 23 ∧
         allDigits b ∧ (b.length = 1 ∨ b.length = 2) ∧ digitsVal b ≤ 59 then
        Except.ok (digitsVal a, digitsVal b)
      else Except.error (Err.validation (VErr.badTime s))
  | _ => Except.error (Err.validation (VErr.badTime s))

/-- Gregorian leap year, as implemented by `datetime.date`. -/
def isLeap (y : ℤ) : Bool :=
  y % 4 = 0 ∧ (y % 100 ≠ 0 ∨ y % 400 = 0)

/-- Days in a month, as validated by the `datetime.date` constructor. -/
def daysInMonth (y m : ℤ) : ℤ :=
  if m = 2 then (if isLeap y then 29 else 28)
  else if m = 4 ∨ m = 6 ∨ m = 9 ∨ m = 11 then 30
  else 31

/-- Proleptic-Gregorian ordinal of a civil date (the value of
`datetime.date(y, m, d).toordinal()`), by the standard era decomposition. -/
def daysFromCivil (y m d : ℤ) : ℤ :=
  let y1 := if m ≤ 2 then y - 1 else y
  let era := Int.ediv y1 400
  let yoe := y1 - era * 400
  let mp := if m ≤ 2 then m + 9 else m - 3
  let doy := Int.ediv (153 * mp + 2) 5 + d - 1
  let doe := yoe * 365 + Int.ediv yoe 4 - Int.ediv yoe 100 + doy
  era * 146097 + doe - 719468 + 719163

/-- Civil date `(year, month, day)` of a proleptic-Gregorian ordinal. -/
def civilFromDays (ord : ℤ) : ℤ × ℤ × ℤ :=
  let z := ord - 719163 + 719468
  let era := Int.ediv z 146097
  let doe := z - era * 146097
  let yoe := Int.ediv (doe - Int.ediv doe 1460 + Int.ediv doe 36524 - Int.ediv doe 146096) 365
  let y := yoe + era * 400
  let doy := doe - (365 * yoe + Int.ediv yoe 4 - Int.ediv yoe 100)
  let mp := Int.ediv (5 * doy + 2) 153
  let d := doy - Int.ediv (153 * mp + 2) 5 + 1
  let m := if mp < 10 then mp + 3 else mp - 9
  (if m ≤ 2 then y + 1 else y, m, d)

/-- Model of `parse_date`: `datetime.strptime(text.strip(), "%d/%m/%Y").date()`.
`%d` matches `3[01]|[1-2]\d|0[1-9]|[1-9]`, `%m` matches `1[0-2]|0[1-9]|[1-9]`,
`%Y` matches exactly four digits; `datetime` then validates the day against
the month length and requires year ≥ 1.  Returns the date's ordinal. -/
def parse_date (s : String) : Except Err ℤ :=
  match splitCh '/' (stripChars s.data) with
  | [d, m, y] =>
      let dv : ℤ := (digitsVal d : ℤ)
      let mv : ℤ := (digitsVal m : ℤ)
      let yv : ℤ := (digitsVal y : ℤ)
      if allDigits d ∧ (d.length = 1 ∨ d.length = 2) ∧ 1 ≤ dv ∧ dv ≤ 31 ∧
         allDigits m ∧ (m.length = 1 ∨ m.length = 2) ∧ 1 ≤ mv ∧ mv ≤ 12 ∧
         allDigits y ∧ y.length = 4 ∧ 1 ≤ yv ∧
         dv ≤ daysInMonth yv mv then
        Except.ok (daysFromCivil yv mv dv)
      else Except.error (Err.validation (VErr.badDate s))
  | _ => Except.error (Err.validation (VErr.badDate s))

/-- Dynamic Python values that can appear in the `breaks` and `ot_hours`
cells of a raw row (and inside decoded JSON).  `other` stands for any value
of a type the source does not special-case (a dict, an object, ...). -/
inductive PyVal where
  | none
  | bool (b : Bool)
  | num (x : PFloat)
  | str (s : String)
  | list (xs : List PyVal)
  | other
deriving Repr

/-- Python `str()` of the values that reach it inside `_flatten_breaks`
(numbers never do, they are converted directly; the repr of a list is only
ever fed to `float(...)`, where any bracketed text fails the same way). -/
def pyStr : PyVal → String
  | PyVal.none => "None"
  | PyVal.bool true => "True"
  | PyVal.bool false => "False"
  | PyVal.num _ => ""
  | PyVal.str s => s
  | PyVal.list _ => "[...]"
  | PyVal.other => "object repr"

/-- Whitespace skipped by the JSON decoder. -/
def jsonWs (c : Char) : Bool := c = ' ' || c = '\t' || c = '\n' || c = '\r'

/-- Decode one JSON string body after the opening quote; returns the
characters and the rest.  Simple escapes are decoded; `\uXXXX` escapes are
not modelled (the decoder fails on them, sending the input to the
comma-splitting fallback of `_flatten_breaks`). -/
def jsonStr : Nat → List Char → Option (List Char × List Char)
  | 0, _ => Option.none
  | _, [] => Option.none
  | fuel + 1, c :: rest =>
    if c = '"' then Option.some ([], rest)
    else if c = '\\' then
      match rest with
      | [] => Option.none
      | e :: rest2 =>
        let dec : Option Char :=
          if e = '"' then Option.some '"'
          else if e = '\\' then Option.some '\\'
          else if e = '/' then Option.some '/'
          else if e = 'n' then Option.some '\n'
          else if e = 't' then Option.some '\t'
          else if e = 'r' then Option.some '\r'
          else if e = 'b' then Option.some '\x08'
          else if e = 'f' then Option.some '\x0c'
          else Option.none
        match dec with
        | Option.none => Option.none
        | Option.some ch =>
          match jsonStr fuel rest2 with
          | Option.some (cs, rem) => Option.some (ch :: cs, rem)
          | Option.none => Option.none
    else
      match jsonStr fuel rest with
      | Option.some (cs, rem) => Option.some (c :: cs, rem)
      | Option.none => Option.none

/-- Parse a JSON number starting at `l` (sign already allowed here);
returns the rational and the rest.  The leading-zero restriction of strict
JSON is not modelled: the values coincide where both accept. -/
def jsonNum (l : List Char) : Option (ℚ × List Char) :=
  let neg := match l with | '-' :: _ => true | _ => false
  let body := match l with | '-' :: t => t | _ => l
  let ip := body.takeWhile Char.isDigit
  let r1 := body.dropWhile Char.isDigit
  if ip = [] then Option.none
  else
    let fp := match r1 with
              | '.' :: t => t.takeWhile Char.isDigit
              | _ => []
    let r2 := match r1 with
              | '.' :: t => t.dropWhile Char.isDigit
              | _ => r1
    if (match r1 with | '.' :: _ => fp.isEmpty | _ => false) then Option.none
    else
      let mant : ℚ := (digitsVal ip : ℚ) + (digitsVal fp : ℚ) / ((10 : ℚ) ^ fp.length)
      let res : Option (ℚ × List Char) :=
        match r2 with
        | 'e' :: t =>
            let esgn : ℤ := match t with | '-' :: _ => -1 | _ => 1
            let ed := match t with | '-' :: u => u | '+' :: u => u | _ => t
            let edd := ed.takeWhile Char.isDigit
            if edd = [] then Option.none
            else Option.some (mant * (10 : ℚ) ^ (esgn * (digitsVal edd : ℤ)), ed.dropWhile Char.isDigit)
        | 'E' :: t =>
            let esgn : ℤ := match t with | '-' :: _ => -1 | _ => 1
            let ed := match t with | '-' :: u => u | '+' :: u => u | _ => t
            let edd := ed.takeWhile Char.isDigit
            if edd = [] then Option.none
            else Option.some (mant * (10 : ℚ) ^ (esgn * (digitsVal edd : ℤ)), ed.dropWhile Char.isDigit)
        | _ => Option.some (mant, r2)
      match res with
      | Option.some (q, rem) => Option.some (if neg then -q else q, rem)
      | Option.none => Option.none

/-- Check that `pre` is a prefix of `l`; on success return the rest. -/
def chompLit : List Char → List Char → Option (List Char)
  | [], l => Option.some l
  | _ :: _, [] => Option.none
  | p :: ps, c :: cs => if p = c then chompLit ps cs else Option.none

mutual

/-- Decode one JSON value (with Python's `NaN`/`Infinity` extensions).
JSON objects are not modelled: on them the decoder fails, which routes
`_flatten_breaks` to its comma-splitting fallback where the offending text
fails `float(...)` exactly as the dict repr would. -/
def jsonVal : Nat → List Char → Option (PyVal × List Char)
  | 0, _ => Option.none
  | fuel + 1, l =>
    let cs := l.dropWhile jsonWs
    match cs with
    | [] => Option.none
    | c :: rest =>
      if c = 'n' then
        match chompLit "ull".data rest with
        | Option.some rem => Option.some (PyVal.none, rem)
        | Option.none => Option.none
      else if c = 't' then
        match chompLit "rue".data rest with
        | Option.some rem => Option.some (PyVal.bool true, rem)
        | Option.none => Option.none
      else if c = 'f' then
        match chompLit "alse".data rest with
        | Option.some rem => Option.some (PyVal.bool false, rem)
        | Option.none => Option.none
      else if c = 'N' then
        match chompLit "aN".data rest with
        | Option.some rem => Option.some (PyVal.num PFloat.nan, rem)
        | Option.none => Option.none
      else if c = 'I' then
        match chompLit "nfinity".data rest with
        | Option.some rem => Option.some (PyVal.num PFloat.inf, rem)
        | Option.none => Option.none
      else if (c == '-') && (match rest with | 'I' :: _ => true | _ => false) then
        match chompLit "Infinity".data rest with
        | Option.some rem => Option.some (PyVal.num PFloat.ninf, rem)
        | Option.none => Option.none
      else if c = '"' then
        match jsonStr fuel rest with
        | Option.some (body, rem) => Option.some (PyVal.str ⟨body⟩, rem)
        | Option.none => Option.none
      else if c = '[' then jsonArr fuel rest
      else
        match jsonNum cs with
        | Option.some (q, rem) => Option.some (PyVal.num (PFloat.fin q), rem)
        | Option.none => Option.none

/-- Decode the elements of a JSON array after the opening bracket. -/
def jsonArr : Nat → List Char → Option (PyVal × List Char)
  | 0, _ => Option.none
  | fuel + 1, l =>
    let cs := l.dropWhile jsonWs
    match cs with
    | ']' :: rem => Option.some (PyVal.list [], rem)
    | _ =>
      match jsonVal fuel cs with
      | Option.none => Option.none
      | Option.some (v, rem) => jsonArrRest fuel [v] rem

/-- Decode `, value`* `]` continuations of a JSON array. -/
def jsonArrRest : Nat → List PyVal → List Char → Option (PyVal × List Char)
  | 0, _, _ => Option.none
  | fuel + 1, acc, l =>
    let cs := l.dropWhile jsonWs
    match cs with
    | ']' :: rem => Option.some (PyVal.list acc.reverse, rem)
    | ',' :: rem =>
      match jsonVal fuel rem with
      | Option.none => Option.none
      | Option.some (v, rem2) => jsonArrRest fuel (v :: acc) rem2
    | _ => Option.none

end

/-- Model of `json.loads` as used by `_flatten_breaks` (must consume the full text). -/
def jsonLoads (s : String) : Option PyVal :=
  match jsonVal (s.length + 1) s.data with
  | Option.some (v, rem) => if rem.dropWhile jsonWs = [] then Option.some v else Option.none
  | Option.none => Option.none

/-- The item conversion of `_flatten_breaks` inside its string branch:
`float(item)` for numbers (and bools, which are ints in Python), else
`float(str(item).strip())`, whose failure is an uncaught `ValueError`. -/
def convStrItem (it : PyVal) : Except Err PFloat :=
  match it with
  | PyVal.num x => Except.ok x
  | PyVal.bool b => Except.ok (PFloat.fin (if b then 1 else 0))
  | _ =>
    match pyFloatOfString (pyStrip (pyStr it)) with
    | Option.some x => Except.ok x
    | Option.none => Except.error (Err.py PyErr.valueError)

/-- The loop of the string branch of `_flatten_breaks`: convert each item,
then reject negatives with the validation error naming the breach. -/
def convStrItems : List PyVal → Except Err (List PFloat)
  | [] => Except.ok []
  | it :: rest =>
    match convStrItem it with
    | Except.error e => Except.error e
    | Except.ok cand =>
      if PFloat.lt cand (PFloat.fin 0) then Except.error (Err.validation VErr.negBreak)
      else
        match convStrItems rest with
        | Except.error e => Except.error e
        | Except.ok l => Except.ok (cand :: l)

/-- The item conversion of the collection branch of `_flatten_breaks`:
bare `float(item)`, whose failure is an uncaught `ValueError` (strings) or
`TypeError` (None, lists, other objects). -/
def convCollItem (it : PyVal) : Except Err PFloat :=
  match it with
  | PyVal.num x => Except.ok x
  | PyVal.bool b => Except.ok (PFloat.fin (if b then 1 else 0))
  | PyVal.str s =>
    match pyFloatOfString s with
    | Option.some x => Except.ok x
    | Option.none => Except.error (Err.py PyErr.valueError)
  | _ => Except.error (Err.py PyErr.typeError)

/-- The loop of the collection branch of `_flatten_breaks`. -/
def convCollItems : List PyVal → Except Err (List PFloat)
  | [] => Except.ok []
  | it :: rest =>
    match convCollItem it with
    | Except.error e => Except.error e
    | Except.ok cand =>
      if PFloat.lt cand (PFloat.fin 0) then Except.error (Err.validation VErr.negBreak)
      else
        match convCollItems rest with
        | Except.error e => Except.error e
        | Except.ok l => Except.ok (cand :: l)

/-- Model of `_flatten_breaks`: convert the various break representations into a list
of hour floats.  `None` and float `nan` give `[]`; a number gives a
singleton after the negativity check; a string is stripped (empty → `[]`),
then decoded as JSON or, failing that, split on `,`/`;`, and each item is
converted and checked; a list is converted item-wise; anything else fails
with the generic unsupported-representation validation error. -/
def _flatten_breaks (v : PyVal) : Except Err (List PFloat) :=
  match v with
  | PyVal.none => Except.ok []
  | PyVal.num x =>
    if x = PFloat.nan then Except.ok []
    else if PFloat.lt x (PFloat.fin 0) then Except.error (Err.validation VErr.negBreak)
    else Except.ok [x]
  | PyVal.bool b => Except.ok [PFloat.fin (if b then 1 else 0)]
  | PyVal.str s =>
    let cleaned := pyStrip s
    if cleaned = "" then Except.ok []
    else
      let parsed : List PyVal :=
        match jsonLoads cleaned with
        | Option.some (PyVal.list xs) => xs
        | Option.some v' => [v']
        | Option.none =>
          ((cleaned.replace ";" ",").splitOn ",").map (fun t => PyVal.str (pyStrip t))
      convStrItems parsed
  | PyVal.list xs => convCollItems xs
  | PyVal.other => Except.error (Err.validation VErr.unsupportedBreak)

/-- Model of `_ensure_float`: `float(value)` with `TypeError`/`ValueError` mapped to
the field-must-be-numeric validation error. -/
def _ensure_float (v : PyVal) (field : String) : Except Err PFloat :=
  match v with
  | PyVal.num x => Except.ok x
  | PyVal.bool b => Except.ok (PFloat.fin (if b then 1 else 0))
  | PyVal.str s =>
    match pyFloatOfString s with
    | Option.some x => Except.ok x
    | Option.none => Except.error (Err.validation (VErr.notNumeric field))
  | _ => Except.error (Err.validation (VErr.notNumeric field))

/-- A DataFrame of the minimal pandas stub: a column list plus typed rows.
The stub stores rows as dicts; here the rows carry the typed fields the
source reads, while `cols` drives the column checks and the schema of empty
outputs. -/
structure Frame (α : Type) where
  cols : List String
  rows : List α
deriving DecidableEq, Repr

/-- One raw input row of `calc_work_hours`.  The `date`, `clock_in`,
`clock_out`, `employee_id` and `name` cells are read through `str(...)` in
the source and are modelled as the resulting strings; `breaks` and
`ot_hours` keep their dynamic Python value.  `shift_label` models
`row.get("shift_label", "")` with `Option.none` for an absent or falsy cell. -/
structure RawRow where
  date : String
  employee_id : String
  name : String
  shift_label : Option String
  clock_in : String
  clock_out : String
  breaks : PyVal
  ot_hours : PyVal

/-- One normalized daily record emitted by `calc_work_hours`. -/
structure NRecord where
  date : ℤ
  employee_id : String
  name : String
  shift_label : Option String
  clock_in : String
  clock_out : String
  break_total : PFloat
  ot_hours : PFloat
  work_hours : PFloat
deriving DecidableEq, Repr

/-- Two-digit zero-padded decimal of a number below 100. -/
def pad2 (n : Nat) : String := if n < 10 then "0" ++ toString n else toString n

/-- Format `strftime("%H:%M")` of a minute-of-day count. -/
def fmtTime (m : Nat) : String := pad2 (m / 60) ++ ":" ++ pad2 (m % 60)

/-- Model of `str(row.get("shift_label", "") or "").strip() or None`. -/
def shiftOut (sl : Option String) : Option String :=
  let s := pyStrip (sl.getD "")
  if s = "" then Option.none else Option.some s

/-- Model of `normalize_interval` on minute-of-day values: roll the end into the next
day when it does not come strictly after the start. -/
def normalize_interval (startM endM : Nat) : Nat × Nat :=
  (startM, if endM ≤ startM then endM + 1440 else endM)

/-- The `net_hours` float a row's loop body computes before the bound
checks: interval hours (end minus start after the overnight rollover of
`normalize_interval`, divided by one hour) minus the break total plus the
overtime. -/
def netHours (tin tout : Nat × Nat) (bl : List PFloat) (ot : PFloat) : PFloat :=
  let sm := 60 * tin.1 + tin.2
  let em := (normalize_interval sm (60 * tout.1 + tout.2)).2
  PFloat.add (PFloat.sub (PFloat.fin (((em : ℚ) - (sm : ℚ)) / 60)) (pySum bl)) ot

/-- The normalized record the loop body appends for a row, from the row's
parsed components: times reformatted as zero-padded `HH:MM`, identifier and
name stripped, numeric fields rounded to two decimal places. -/
def mkRecord (row : RawRow) (wd : ℤ) (tin tout : Nat × Nat) (bl : List PFloat)
    (ot : PFloat) : NRecord :=
  let sm := 60 * tin.1 + tin.2
  let em := (normalize_interval sm (60 * tout.1 + tout.2)).2
  { date := wd
    employee_id := pyStrip row.employee_id
    name := pyStrip row.name
    shift_label := shiftOut row.shift_label
    clock_in := fmtTime (sm % 1440)
    clock_out := fmtTime (em % 1440)
    break_total := pround2 (pySum bl)
    ot_hours := pround2 ot
    work_hours := pround2 (netHours tin tout bl ot) }

/-- The per-row body of the `calc_work_hours` loop: parse date and times,
normalize the interval, flatten breaks, validate overtime, compute and
bound-check the net hours, and emit the normalized record. -/
def calcRow (row : RawRow) : Except Err NRecord :=
  match parse_date row.date with
  | Except.error e => Except.error e
  | Except.ok workDate =>
  match parse_time row.clock_in with
  | Except.error e => Except.error e
  | Except.ok tin =>
  match parse_time row.clock_out with
  | Except.error e => Except.error e
  | Except.ok tout =>
  match _flatten_breaks row.breaks with
  | Except.error e => Except.error e
  | Except.ok breaksList =>
  match _ensure_float row.ot_hours "ot_hours" with
  | Except.error e => Except.error e
  | Except.ok ot =>
  if PFloat.lt ot (PFloat.fin 0) then Except.error (Err.validation VErr.negOvertime)
  else if PFloat.lt (netHours tin tout breaksList ot) (PFloat.fin 0) then
    Except.error (Err.validation VErr.negNet)
  else if PFloat.lt (PFloat.fin 16) (netHours tin tout breaksList ot) then
    Except.error (Err.validation VErr.excessNet)
  else Except.ok (mkRecord row workDate tin tout breaksList ot)

/-- Map a fallible conversion over a list, stopping at the first error
(the fail-fast row loop of the source). -/
def exMapM {α β : Type} (f : α → Except Err β) : List α → Except Err (List β)
  | [] => Except.ok []
  | x :: xs =>
    match f x with
    | Except.error e => Except.error e
    | Except.ok y =>
      match exMapM f xs with
      | Except.error e => Except.error e
      | Except.ok ys => Except.ok (y :: ys)

/-- The required raw columns of `calc_work_hours`, in the order produced by
`sorted(...)` on the set difference. -/
def requiredRawSorted : List String :=
  ["breaks", "clock_in", "clock_out", "date", "employee_id", "name", "ot_hours"]

/-- The fixed output column list of the normalized daily schema. -/
def dailyCols : List String :=
  ["date", "employee_id", "name", "shift_label", "clock_in", "clock_out",
   "break_total", "ot_hours", "work_hours"]

/-- Sort order used on normalized records: the Python tuple key
`(date, employee_id)`. -/
def nrLe (a b : NRecord) : Prop :=
  a.date < b.date ∨ (a.date = b.date ∧ a.employee_id ≤ b.employee_id)

instance : DecidableRel nrLe := fun a b => by unfold nrLe; exact inferInstance

instance : IsTotal NRecord nrLe where
  total a b := by
    unfold nrLe
    rcases lt_trichotomy a.date b.date with h | h | h
    · exact Or.inl (Or.inl h)
    · rcases le_total a.employee_id b.employee_id with h2 | h2
      · exact Or.inl (Or.inr ⟨h, h2⟩)
      · exact Or.inr (Or.inr ⟨h.symm, h2⟩)
    · exact Or.inr (Or.inl h)

instance : IsTrans NRecord nrLe where
  trans a b c hab hbc := by
    unfold nrLe at *
    rcases hab with h1 | ⟨e1, s1⟩
    · rcases hbc with h2 | ⟨e2, s2⟩
      · exact Or.inl (h1.trans h2)
      · exact Or.inl (e2 ▸ h1)
    · rcases hbc with h2 | ⟨e2, s2⟩
      · exact Or.inl (e1 ▸ h2)
      · exact Or.inr ⟨e1.trans e2, s1.trans s2⟩

/-- Model of `calc_work_hours`: check the required columns (reporting every missing
one, sorted, before any row is processed), process each row fail-fast, and
return the sorted normalized frame; an empty row set yields the fixed
column schema. -/
def calc_work_hours (records : Frame RawRow) : Except Err (Frame NRecord) :=
  let missing := requiredRawSorted.filter (fun c => decide (c ∉ records.cols))
  if missing ≠ [] then Except.error (Err.validation (VErr.missingColumns missing))
  else
    match exMapM calcRow records.rows with
    | Except.error e => Except.error e
    | Except.ok normalized =>
      if normalized = [] then Except.ok ⟨dailyCols, []⟩
      else Except.ok ⟨dailyCols, List.insertionSort nrLe normalized⟩

/-- A date cell of a stored daily record: either an already-parsed `date`
(its ordinal) or a string to reparse.  The `datetime` branch of the source
collapses to the same ordinal. -/
inductive DateVal where
  | ord (z : ℤ)
  | str (s : String)
deriving DecidableEq, Repr

/-- A numeric cell of a stored daily record, fed to `float(...)`. -/
inductive NumVal where
  | num (x : PFloat)
  | str (s : String)
  | bad
deriving DecidableEq, Repr

/-- One row of the daily-schema input accepted by `build_daily_summary`. -/
structure DRow where
  date : DateVal
  employee_id : String
  name : String
  shift_label : Option String
  clock_in : String
  clock_out : String
  break_total : NumVal
  ot_hours : NumVal
  work_hours : NumVal
deriving DecidableEq, Repr

/-- One canonical daily row as produced by `build_daily_summary`. -/
structure CRow where
  date : ℤ
  employee_id : String
  name : String
  shift_label : Option String
  clock_in : String
  clock_out : String
  break_total : PFloat
  ot_hours : PFloat
  work_hours : PFloat
deriving DecidableEq, Repr

/-- Inject a canonical daily row back into the input schema (the value
round-trip through the output DataFrame). -/
def embedRow (c : CRow) : DRow :=
  { date := DateVal.ord c.date
    employee_id := c.employee_id
    name := c.name
    shift_label := c.shift_label
    clock_in := c.clock_in
    clock_out := c.clock_out
    break_total := NumVal.num c.break_total
    ot_hours := NumVal.num c.ot_hours
    work_hours := NumVal.num c.work_hours }

/-- Inject a whole canonical frame back into the input schema. -/
def embedFrame (f : Frame CRow) : Frame DRow := ⟨f.cols, f.rows.map embedRow⟩

/-- Model of `float(cell)` on a stored numeric cell; a failure escapes
`build_daily_summary` as an uncaught `ValueError`/`TypeError`. -/
def numToFloat (v : NumVal) : Except Err PFloat :=
  match v with
  | NumVal.num x => Except.ok x
  | NumVal.str s =>
    match pyFloatOfString s with
    | Option.some x => Except.ok x
    | Option.none => Except.error (Err.py PyErr.valueError)
  | NumVal.bad => Except.error (Err.py PyErr.typeError)

/-- The date resolution of `build_daily_summary`: pass parsed dates
through, reparse strings. -/
def dateToOrd (v : DateVal) : Except Err ℤ :=
  match v with
  | DateVal.ord z => Except.ok z
  | DateVal.str s => parse_date s

/-- The per-row reshaping of `build_daily_summary`. -/
def dailyRow (r : DRow) : Except Err CRow :=
  match dateToOrd r.date with
  | Except.error e => Except.error e
  | Except.ok z =>
  match numToFloat r.break_total with
  | Except.error e => Except.error e
  | Except.ok bt =>
  match numToFloat r.ot_hours with
  | Except.error e => Except.error e
  | Except.ok ot =>
  match numToFloat r.work_hours with
  | Except.error e => Except.error e
  | Except.ok wh =>
  Except.ok
    { date := z
      employee_id := pyStrip r.employee_id
      name := pyStrip r.name
      shift_label := r.shift_label
      clock_in := r.clock_in
      clock_out := r.clock_out
      break_total := bt
      ot_hours := ot
      work_hours := wh }

/-- Sort order of daily summaries: the Python tuple key `(date, employee_id)`. -/
def crLe (a b : CRow) : Prop :=
  a.date < b.date ∨ (a.date = b.date ∧ a.employee_id ≤ b.employee_id)

instance : DecidableRel crLe := fun a b => by unfold crLe; exact inferInstance

instance : IsTotal CRow crLe where
  total a b := by
    unfold crLe
    rcases lt_trichotomy a.date b.date with h | h | h
    · exact Or.inl (Or.inl h)
    · rcases le_total a.employee_id b.employee_id with h2 | h2
      · exact Or.inl (Or.inr ⟨h, h2⟩)
      · exact Or.inr (Or.inr ⟨h.symm, h2⟩)
    · exact Or.inr (Or.inl h)

instance : IsTrans CRow crLe where
  trans a b c hab hbc := by
    unfold crLe at *
    rcases hab with h1 | ⟨e1, s1⟩
    · rcases hbc with h2 | ⟨e2, s2⟩
      · exact Or.inl (h1.trans h2)
      · exact Or.inl (e2 ▸ h1)
    · rcases hbc with h2 | ⟨e2, s2⟩
      · exact Or.inl (e1 ▸ h2)
      · exact Or.inr ⟨e1.trans e2, s1.trans s2⟩

/-- Model of `build_daily_summary`: check the expected columns (message in column
order), reshape each row, and return the frame sorted by
`(date, employee_id)` with the fixed column list. -/
def build_daily_summary (records : Frame DRow) : Except Err (Frame CRow) :=
  let missing := dailyCols.filter (fun c => decide (c ∉ records.cols))
  if missing ≠ [] then Except.error (Err.validation (VErr.missingRecordColumns missing))
  else
    match exMapM dailyRow records.rows with
    | Except.error e => Except.error e
    | Except.ok dailyRows => Except.ok ⟨dailyCols, List.insertionSort crLe dailyRows⟩

/-- Python `date.weekday()` on an ordinal: ordinal 1 (0001-01-01) is a
Monday, so the 0-Monday weekday is `(ordinal + 6) % 7`. -/
def pyWeekday (z : ℤ) : ℤ := (z + 6) % 7

/-- Model of `day - timedelta(days=day.weekday())`: the Monday of the week. -/
def weekStart (z : ℤ) : ℤ := z - pyWeekday z

/-- Four-digit zero-padded year (`strftime("%Y")`). -/
def pad4 (y : ℤ) : String :=
  let n := y.toNat
  if n < 10 then "000" ++ toString n
  else if n < 100 then "00" ++ toString n
  else if n < 1000 then "0" ++ toString n
  else toString n

/-- Model of `date.strftime("%Y-%m")` on an ordinal. -/
def monthKey (z : ℤ) : String :=
  let c := civilFromDays z
  pad4 c.1 ++ "-" ++ pad2 c.2.1.toNat

/-- The mutable per-group accumulator of the aggregation loops:
running totals plus the set of distinct dates seen (kept as the list of
first occurrences; only its size is read). -/
structure GAcc where
  wht : PFloat
  ott : PFloat
  days : List ℤ
deriving DecidableEq, Repr

/-- The zero accumulator installed by `setdefault`. -/
def ginit : GAcc := ⟨PFloat.fin 0, PFloat.fin 0, []⟩

/-- One `+=`/`add` update of an accumulator with a daily row. -/
def gstep (a : GAcc) (r : CRow) : GAcc :=
  { wht := PFloat.add a.wht r.work_hours
    ott := PFloat.add a.ott r.ot_hours
    days := if r.date ∈ a.days then a.days else a.days ++ [r.date] }

/-- Model of `aggregates.setdefault(key, zero)` followed by the `+=` updates, on an
insertion-ordered association list (Python dicts preserve insertion order). -/
def updateGroup {κ : Type} [DecidableEq κ] (key : CRow → κ) :
    List (κ × GAcc) → CRow → List (κ × GAcc)
  | [], r => [(key r, gstep ginit r)]
  | (k', a) :: t, r =>
    if k' = key r then (k', gstep a r) :: t
    else (k', a) :: updateGroup key t r

/-- The whole aggregation loop over the daily rows. -/
def groupBy {κ : Type} [DecidableEq κ] (key : CRow → κ) (rows : List CRow) :
    List (κ × GAcc) :=
  rows.foldl (updateGroup key) []

/-- Grouping key of the weekly aggregation:
`(week_start, week_end, employee_id, name)`. -/
def wkey (r : CRow) : ℤ × ℤ × String × String :=
  (weekStart r.date, weekStart r.date + 6, r.employee_id, r.name)

/-- One weekly summary row. -/
structure WRow where
  week_start : ℤ
  week_end : ℤ
  employee_id : String
  name : String
  work_hours_total : PFloat
  ot_total : PFloat
  days_present : Nat
deriving DecidableEq, Repr

/-- Render one weekly group into its output row. -/
def renderW (e : (ℤ × ℤ × String × String) × GAcc) : WRow :=
  { week_start := e.1.1
    week_end := e.1.2.1
    employee_id := e.1.2.2.1
    name := e.1.2.2.2
    work_hours_total := pround2 e.2.wht
    ot_total := pround2 e.2.ott
    days_present := e.2.days.length }

/-- Key read back from a weekly output row. -/
def wkeyOut (w : WRow) : ℤ × ℤ × String × String :=
  (w.week_start, w.week_end, w.employee_id, w.name)

/-- Sort order of weekly summaries: the Python tuple key
`(week_start, employee_id)`. -/
def wrLe (a b : WRow) : Prop :=
  a.week_start < b.week_start ∨
    (a.week_start = b.week_start ∧ a.employee_id ≤ b.employee_id)

instance : DecidableRel wrLe := fun a b => by unfold wrLe; exact inferInstance

instance : IsTotal WRow wrLe where
  total a b := by
    unfold wrLe
    rcases lt_trichotomy a.week_start b.week_start with h | h | h
    · exact Or.inl (Or.inl h)
    · rcases le_total a.employee_id b.employee_id with h2 | h2
      · exact Or.inl (Or.inr ⟨h, h2⟩)
      · exact Or.inr (Or.inr ⟨h.symm, h2⟩)
    · exact Or.inr (Or.inl h)

instance : IsTrans WRow wrLe where
  trans a b c hab hbc := by
    unfold wrLe at *
    rcases hab with h1 | ⟨e1, s1⟩
    · rcases hbc with h2 | ⟨e2, s2⟩
      · exact Or.inl (h1.trans h2)
      · exact Or.inl (e2 ▸ h1)
    · rcases hbc with h2 | ⟨e2, s2⟩
      · exact Or.inl (e1 ▸ h2)
      · exact Or.inr ⟨e1.trans e2, s1.trans s2⟩

/-- The fixed output column list of the weekly schema. -/
def weeklyCols : List String :=
  ["week_start", "week_end", "employee_id", "name", "work_hours_total",
   "ot_total", "days_present"]

/-- Model of `build_weekly_summary`: daily summary, then group Monday-to-Sunday,
round the totals, count distinct days, and sort by `(week_start, employee_id)`. -/
def build_weekly_summary (records : Frame DRow) : Except Err (Frame WRow) :=
  match build_daily_summary records with
  | Except.error e => Except.error e
  | Except.ok daily =>
    if daily.rows = [] then Except.ok ⟨weeklyCols, []⟩
    else Except.ok ⟨weeklyCols, List.insertionSort wrLe ((groupBy wkey daily.rows).map renderW)⟩

/-- One monthly summary row. -/
structure MRow where
  month : String
  employee_id : String
  name : String
  work_hours_total : PFloat
  ot_total : PFloat
  days_present : Nat
deriving DecidableEq, Repr

/-- Grouping key of the monthly aggregation: `(year-month, employee_id, name)`. -/
def mkey (r : CRow) : String × String × String :=
  (monthKey r.date, r.employee_id, r.name)

/-- Render one monthly group into its output row. -/
def renderM (e : (String × String × String) × GAcc) : MRow :=
  { month := e.1.1
    employee_id := e.1.2.1
    name := e.1.2.2
    work_hours_total := pround2 e.2.wht
    ot_total := pround2 e.2.ott
    days_present := e.2.days.length }

/-- Sort order of monthly summaries: the Python tuple key `(month, employee_id)`. -/
def mrLe (a b : MRow) : Prop :=
  a.month < b.month ∨ (a.month = b.month ∧ a.employee_id ≤ b.employee_id)

instance : DecidableRel mrLe := fun a b => by unfold mrLe; exact inferInstance

instance : IsTotal MRow mrLe where
  total a b := by
    unfold mrLe
    rcases lt_trichotomy a.month b.month with h | h | h
    · exact Or.inl (Or.inl h)
    · rcases le_total a.employee_id b.employee_id with h2 | h2
      · exact Or.inl (Or.inr ⟨h, h2⟩)
      · exact Or.inr (Or.inr ⟨h.symm, h2⟩)
    · exact Or.inr (Or.inl h)

instance : IsTrans MRow mrLe where
  trans a b c hab hbc := by
    unfold mrLe at *
    rcases hab with h1 | ⟨e1, s1⟩
    · rcases hbc with h2 | ⟨e2, s2⟩
      · exact Or.inl (h1.trans h2)
      · exact Or.inl (e2 ▸ h1)
    · rcases hbc with h2 | ⟨e2, s2⟩
      · exact Or.inl (e1 ▸ h2)
      · exact Or.inr ⟨e1.trans e2, s1.trans s2⟩

/-- The fixed output column list of the monthly schema. -/
def monthlyCols : List String :=
  ["month", "employee_id", "name", "work_hours_total", "ot_total", "days_present"]

/-- Model of `build_monthly_summary`: daily summary, then group by calendar month and
sort by `(month, employee_id)`. -/
def build_monthly_summary (records : Frame DRow) : Except Err (Frame MRow) :=
  match build_daily_summary records with
  | Except.error e => Except.error e
  | Except.ok daily =>
    if daily.rows = [] then Except.ok ⟨monthlyCols, []⟩
    else Except.ok ⟨monthlyCols, List.insertionSort mrLe ((groupBy mkey daily.rows).map renderM)⟩

/-- A call to one of the three aggregation functions. -/
inductive BuilderCall where
  | daily
  | weekly
  | monthly
deriving DecidableEq, Repr

/-- The result of one aggregation call. -/
inductive BuilderOut where
  | daily (r : Except Err (Frame CRow))
  | weekly (r : Except Err (Frame WRow))
  | monthly (r : Except Err (Frame MRow))
deriving Repr

/-- Run one aggregation function on an input frame. -/
def runBuilder (c : BuilderCall) (f : Frame DRow) : BuilderOut :=
  match c with
  | BuilderCall.daily => BuilderOut.daily (build_daily_summary f)
  | BuilderCall.weekly => BuilderOut.weekly (build_weekly_summary f)
  | BuilderCall.monthly => BuilderOut.monthly (build_monthly_summary f)

/-- One aggregation call together with the state of the caller's input
collection after the call.  The source functions only read `records`
(through `iterrows`/`columns`) and build fresh row dicts; their only
mutations (`daily_rows.sort`, the accumulator dict) are local, so the
input frame after the call is the input frame before it. -/
def callBuilder (c : BuilderCall) (f : Frame DRow) : BuilderOut × Frame DRow :=
  (runBuilder c f, f)

/-- Run a sequence of aggregation calls, threading the (possibly mutated)
input collection from each call to the next. -/
def runSession : Frame DRow → List BuilderCall → List BuilderOut × Frame DRow
  | f, [] => ([], f)
  | f, c :: cs =>
    let step := callBuilder c f
    let rest := runSession step.2 cs
    (step.1 :: rest.1, rest.2)

/-! ### Helper lemmas -/

theorem dropWhile_dropWhile {α : Type} (p : α → Bool) (l : List α) :
    (l.dropWhile p).dropWhile p = l.dropWhile p := by
  induction l with
  | nil => rfl
  | cons x l ih =>
    by_cases hx : p x
    · simp [List.dropWhile_cons, hx, ih]
    · simp [List.dropWhile_cons, hx]

theorem dropWhile_head_not {α : Type} (p : α → Bool) :
    ∀ (l : List α) (x : α) (t : List α), l.dropWhile p = x :: t → p x = false := by
  intro l
  induction l with
  | nil => intro x t h; cases h
  | cons y l ih =>
    intro x t h
    by_cases hy : p y
    · exact ih x t (by simpa [List.dropWhile_cons, hy] using h)
    · rw [List.dropWhile_cons, if_neg (by simpa using hy)] at h
      cases h
      simpa using hy

theorem dropWhile_isSuffix {α : Type} (p : α → Bool) :
    ∀ l : List α, l.dropWhile p <:+ l := by
  intro l
  induction l with
  | nil => exact List.suffix_refl _
  | cons x l ih =>
    by_cases hx : p x
    · rw [List.dropWhile_cons, if_pos (by simpa using hx)]
      exact ih.trans (List.suffix_cons x l)
    · rw [List.dropWhile_cons, if_neg (by simpa using hx)]

theorem stripChars_idem (l : List Char) : stripChars (stripChars l) = stripChars l := by
  unfold stripChars
  set p := isPySpace with hp
  set A := l.dropWhile p with hA
  set C := A.reverse.dropWhile p with hC
  have hfix : C.reverse.dropWhile p = C.reverse := by
    cases hCr : C.reverse with
    | nil => rfl
    | cons y t =>
      have hsuf : C <:+ A.reverse := dropWhile_isSuffix p A.reverse
      have hpre : C.reverse <+: A := by
        have := List.reverse_prefix.mpr hsuf
        simpa using this
      rcases hpre with ⟨s, hs⟩
      have hAy : A = y :: (t ++ s) := by rw [← hs, hCr]; simp
      have hy : p y = false := dropWhile_head_not p l y (t ++ s) (by rw [← hA, hAy])
      simp [List.dropWhile_cons, hy]
  rw [hfix]
  have : C.reverse.reverse.dropWhile p = C := by
    rw [List.reverse_reverse, hC, dropWhile_dropWhile]
  rw [this]

theorem pyStrip_idem (s : String) : pyStrip (pyStrip s) = pyStrip s := by
  unfold pyStrip
  exact congrArg String.mk (stripChars_idem s.data)

theorem exMapM_ok_mem {α β : Type} (f : α → Except Err β) :
    ∀ (l : List α) (ys : List β), exMapM f l = Except.ok ys →
      ∀ y ∈ ys, ∃ x ∈ l, f x = Except.ok y := by
  intro l
  induction l with
  | nil =>
    intro ys h y hy
    cases h
    cases hy
  | cons x l ih =>
    intro ys h y hy
    unfold exMapM at h
    cases hfx : f x with
    | error e => rw [hfx] at h; cases h
    | ok v =>
      rw [hfx] at h
      cases hrest : exMapM f l with
      | error e => rw [hrest] at h; cases h
      | ok vs =>
        rw [hrest] at h
        cases h
        rcases List.mem_cons.mp hy with h1 | h1
        · exact ⟨x, List.mem_cons_self x l, h1 ▸ hfx⟩
        · rcases ih vs hrest y h1 with ⟨x', hx', hfx'⟩
          exact ⟨x', List.mem_cons_of_mem x hx', hfx'⟩

theorem exMapM_fix {α : Type} (f : α → Except Err α) :
    ∀ l : List α, (∀ x ∈ l, f x = Except.ok x) → exMapM f l = Except.ok l := by
  intro l
  induction l with
  | nil => intro _; rfl
  | cons x l ih =>
    intro h
    unfold exMapM
    rw [h x (List.mem_cons_self x l), ih (fun y hy => h y (List.mem_cons_of_mem x hy))]

/-- Append a key if it has not been seen yet (dict key creation order). -/
def insertNewKey {κ : Type} [DecidableEq κ] (ks : List κ) (k : κ) : List κ :=
  if k ∈ ks then ks else ks ++ [k]

/-- The keys of the aggregation dict, in first-occurrence order. -/
def firstKeys {κ : Type} [DecidableEq κ] (key : CRow → κ) (rows : List CRow) : List κ :=
  rows.foldl (fun ks r => insertNewKey ks (key r)) []

/-- The accumulator a group ends with: the fold over the rows of that group. -/
def groupAcc {κ : Type} [DecidableEq κ] (key : CRow → κ) (rows : List CRow) (k : κ) : GAcc :=
  (rows.filter (fun r => decide (key r = k))).foldl gstep ginit

theorem mem_foldl_insertNewKey {κ : Type} [DecidableEq κ] (key : CRow → κ) :
    ∀ (l : List CRow) (acc : List κ) (k : κ),
      (k ∈ l.foldl (fun ks r => insertNewKey ks (key r)) acc) ↔
        (k ∈ acc ∨ k ∈ l.map key) := by
  intro l
  induction l with
  | nil => intro acc k; simp
  | cons x l ih =>
    intro acc k
    rw [List.foldl_cons, ih]
    unfold insertNewKey
    by_cases h : key x ∈ acc
    · simp only [if_pos h, List.map_cons, List.mem_cons]
      constructor
      · rintro (h1 | h1)
        · exact Or.inl h1
        · exact Or.inr (Or.inr h1)
      · rintro (h1 | h1 | h1)
        · exact Or.inl h1
        · exact Or.inl (h1 ▸ h)
        · exact Or.inr h1
    · simp only [if_neg h, List.map_cons, List.mem_cons, List.mem_append,
        List.mem_singleton]
      tauto

theorem nodup_foldl_insertNewKey {κ : Type} [DecidableEq κ] (key : CRow → κ) :
    ∀ (l : List CRow) (acc : List κ), acc.Nodup →
      (l.foldl (fun ks r => insertNewKey ks (key r)) acc).Nodup := by
  intro l
  induction l with
  | nil => intro acc h; exact h
  | cons x l ih =>
    intro acc h
    rw [List.foldl_cons]
    apply ih
    unfold insertNewKey
    by_cases hx : key x ∈ acc
    · simpa [hx] using h
    · rw [if_neg hx]
      simpa [List.nodup_append] using ⟨h, hx⟩

theorem firstKeys_nodup {κ : Type} [DecidableEq κ] (key : CRow → κ) (rows : List CRow) :
    (firstKeys key rows).Nodup :=
  nodup_foldl_insertNewKey key rows [] List.nodup_nil

theorem mem_firstKeys {κ : Type} [DecidableEq κ] (key : CRow → κ) (rows : List CRow)
    (k : κ) : k ∈ firstKeys key rows ↔ ∃ r ∈ rows, key r = k := by
  unfold firstKeys
  rw [mem_foldl_insertNewKey]
  simp [eq_comm]

theorem updateGroup_map {κ : Type} [DecidableEq κ] (key : CRow → κ) :
    ∀ (ks : List κ) (acc : κ → GAcc) (x : CRow), ks.Nodup →
      updateGroup key (ks.map (fun k => (k, acc k))) x =
        (if key x ∈ ks then
          ks.map (fun k => (k, if k = key x then gstep (acc k) x else acc k))
        else ks.map (fun k => (k, acc k)) ++ [(key x, gstep ginit x)]) := by
  intro ks
  induction ks with
  | nil =>
    intro acc x _
    simp [updateGroup]
  | cons k' ks ih =>
    intro acc x hnd
    rw [List.map_cons]
    show updateGroup key ((k', acc k') :: ks.map (fun k => (k, acc k))) x = _
    unfold updateGroup
    by_cases hk : k' = key x
    · rw [if_pos hk]
      have hxk : key x ∈ k' :: ks := by rw [← hk]; exact List.mem_cons_self _ _
      rw [if_pos hxk, List.map_cons, if_pos hk]
      congr 1
      have hnotin : key x ∉ ks := by
        rw [← hk]; exact (List.nodup_cons.mp hnd).1
      apply List.map_congr_left
      intro a ha
      have : a ≠ key x := fun hax => hnotin (hax ▸ ha)
      rw [if_neg this]
    · rw [if_neg hk, ih acc x (List.nodup_cons.mp hnd).2]
      by_cases hmem : key x ∈ ks
      · have hxk : key x ∈ k' :: ks := List.mem_cons_of_mem _ hmem
        rw [if_pos hmem, if_pos hxk, List.map_cons, if_neg hk]
      · have hxk : key x ∉ k' :: ks := by
          rw [List.mem_cons]
          rintro (h1 | h1)
          · exact hk h1.symm
          · exact hmem h1
        rw [if_neg hmem, if_neg hxk]
        simp

theorem groupAcc_concat {κ : Type} [DecidableEq κ] (key : CRow → κ)
    (rows : List CRow) (x : CRow) (k : κ) :
    groupAcc key (rows ++ [x]) k =
      (if key x = k then gstep (groupAcc key rows k) x else groupAcc key rows k) := by
  unfold groupAcc
  rw [List.filter_append, List.foldl_append]
  by_cases h : key x = k
  · simp [List.filter, h]
  · simp [List.filter, h]

theorem firstKeys_concat {κ : Type} [DecidableEq κ] (key : CRow → κ)
    (xs : List CRow) (x : CRow) :
    firstKeys key (xs ++ [x]) = insertNewKey (firstKeys key xs) (key x) := by
  unfold firstKeys
  rw [List.foldl_concat]

theorem groupBy_concat {κ : Type} [DecidableEq κ] (key : CRow → κ)
    (xs : List CRow) (x : CRow) :
    groupBy key (xs ++ [x]) = updateGroup key (groupBy key xs) x := by
  unfold groupBy
  rw [List.foldl_concat]

theorem groupBy_eq {κ : Type} [DecidableEq κ] (key : CRow → κ) (rows : List CRow) :
    groupBy key rows = (firstKeys key rows).map (fun k => (k, groupAcc key rows k)) := by
  induction rows using List.reverseRecOn with
  | nil => rfl
  | append_singleton xs x ih =>
    rw [groupBy_concat, firstKeys_concat, ih,
      updateGroup_map key _ _ x (firstKeys_nodup key xs)]
    by_cases hmem : key x ∈ firstKeys key xs
    · rw [if_pos hmem]
      unfold insertNewKey
      rw [if_pos hmem]
      apply List.map_congr_left
      intro k _
      rw [groupAcc_concat]
      by_cases hkx : k = key x
      · subst hkx
        simp
      · rw [if_neg hkx, if_neg (fun h => hkx h.symm)]
    · rw [if_neg hmem]
      unfold insertNewKey
      rw [if_neg hmem, List.map_append]
      congr 1
      · apply List.map_congr_left
        intro k hk
        have hkx : key x ≠ k := fun h => hmem (h ▸ hk)
        rw [groupAcc_concat, if_neg hkx]
      · simp only [List.map_cons, List.map_nil]
        rw [groupAcc_concat, if_pos rfl]
        have hfil : xs.filter (fun r => decide (key r = key x)) = [] := by
          rw [List.filter_eq_nil_iff]
          intro r hr
          simp only [decide_eq_true_eq]
          intro hkr
          exact hmem ((mem_firstKeys key xs (key x)).mpr ⟨r, hr, hkr⟩)
        unfold groupAcc
        rw [hfil]
        rfl

theorem foldl_gstep_wht :
    ∀ (l : List CRow) (a : GAcc),
      (l.foldl gstep a).wht = l.foldl (fun s r => PFloat.add s r.work_hours) a.wht := by
  intro l
  induction l with
  | nil => intro a; rfl
  | cons x l ih => intro a; rw [List.foldl_cons, List.foldl_cons, ih]; rfl

theorem foldl_gstep_ott :
    ∀ (l : List CRow) (a : GAcc),
      (l.foldl gstep a).ott = l.foldl (fun s r => PFloat.add s r.ot_hours) a.ott := by
  intro l
  induction l with
  | nil => intro a; rfl
  | cons x l ih => intro a; rw [List.foldl_cons, List.foldl_cons, ih]; rfl

theorem foldl_gstep_days_mem :
    ∀ (l : List CRow) (a : GAcc) (z : ℤ),
      z ∈ (l.foldl gstep a).days ↔ z ∈ a.days ∨ z ∈ l.map CRow.date := by
  intro l
  induction l with
  | nil => intro a z; simp
  | cons x l ih =>
    intro a z
    rw [List.foldl_cons, ih]
    show (z ∈ (gstep a x).days ∨ _) ↔ _
    unfold gstep
    by_cases h : x.date ∈ a.days
    · simp only [if_pos h, List.map_cons, List.mem_cons]
      constructor
      · rintro (h1 | h1)
        · exact Or.inl h1
        · exact Or.inr (Or.inr h1)
      · rintro (h1 | h1 | h1)
        · exact Or.inl h1
        · exact Or.inl (h1 ▸ h)
        · exact Or.inr h1
    · simp only [if_neg h, List.map_cons, List.mem_cons, List.mem_append,
        List.mem_singleton]
      tauto

theorem foldl_gstep_days_nodup :
    ∀ (l : List CRow) (a : GAcc), a.days.Nodup → (l.foldl gstep a).days.Nodup := by
  intro l
  induction l with
  | nil => intro a h; exact h
  | cons x l ih =>
    intro a h
    rw [List.foldl_cons]
    apply ih
    unfold gstep
    by_cases hx : x.date ∈ a.days
    · simpa [hx] using h
    · simp only [if_neg hx]
      simpa [List.nodup_append] using ⟨h, hx⟩

theorem groupAcc_wht {κ : Type} [DecidableEq κ] (key : CRow → κ) (rows : List CRow)
    (k : κ) :
    (groupAcc key rows k).wht =
      (rows.filter (fun r => decide (key r = k))).foldl
        (fun s r => PFloat.add s r.work_hours) (PFloat.fin 0) := by
  unfold groupAcc
  rw [foldl_gstep_wht]
  rfl

theorem groupAcc_ott {κ : Type} [DecidableEq κ] (key : CRow → κ) (rows : List CRow)
    (k : κ) :
    (groupAcc key rows k).ott =
      (rows.filter (fun r => decide (key r = k))).foldl
        (fun s r => PFloat.add s r.ot_hours) (PFloat.fin 0) := by
  unfold groupAcc
  rw [foldl_gstep_ott]
  rfl

theorem groupAcc_days_card {κ : Type} [DecidableEq κ] (key : CRow → κ) (rows : List CRow)
    (k : κ) :
    (groupAcc key rows k).days.length =
      (((rows.filter (fun r => decide (key r = k))).map CRow.date).toFinset).card := by
  unfold groupAcc
  set l := rows.filter (fun r => decide (key r = k))
  have hnd : (l.foldl gstep ginit).days.Nodup :=
    foldl_gstep_days_nodup l ginit List.nodup_nil
  have hmem : ∀ z, z ∈ (l.foldl gstep ginit).days ↔ z ∈ l.map CRow.date := by
    intro z
    rw [foldl_gstep_days_mem]
    simp [ginit]
  have hts : (l.foldl gstep ginit).days.toFinset = (l.map CRow.date).toFinset := by
    apply Finset.ext
    intro z
    rw [List.mem_toFinset, List.mem_toFinset, hmem]
  rw [← List.toFinset_card_of_nodup hnd, hts]

theorem calcRow_ok_inv (row : RawRow) (rec : NRecord)
    (h : calcRow row = Except.ok rec) :
    ∃ wd tin tout bl ot,
      parse_date row.date = Except.ok wd ∧
      parse_time row.clock_in = Except.ok tin ∧
      parse_time row.clock_out = Except.ok tout ∧
      _flatten_breaks row.breaks = Except.ok bl ∧
      _ensure_float row.ot_hours "ot_hours" = Except.ok ot ∧
      PFloat.lt ot (PFloat.fin 0) = false ∧
      PFloat.lt (netHours tin tout bl ot) (PFloat.fin 0) = false ∧
      PFloat.lt (PFloat.fin 16) (netHours tin tout bl ot) = false ∧
      rec = mkRecord row wd tin tout bl ot := by
  unfold calcRow at h
  cases h1 : parse_date row.date with
  | error e => simp only [h1] at h; exact absurd h (by simp)
  | ok wd =>
  simp only [h1] at h
  cases h2 : parse_time row.clock_in with
  | error e => simp only [h2] at h; exact absurd h (by simp)
  | ok tin =>
  simp only [h2] at h
  cases h3 : parse_time row.clock_out with
  | error e => simp only [h3] at h; exact absurd h (by simp)
  | ok tout =>
  simp only [h3] at h
  cases h4 : _flatten_breaks row.breaks with
  | error e => simp only [h4] at h; exact absurd h (by simp)
  | ok bl =>
  simp only [h4] at h
  cases h5 : _ensure_float row.ot_hours "ot_hours" with
  | error e => simp only [h5] at h; exact absurd h (by simp)
  | ok ot =>
  simp only [h5] at h
  cases h6 : PFloat.lt ot (PFloat.fin 0) with
  | true => simp only [h6, if_true] at h; exact absurd h (by simp)
  | false =>
  simp only [h6, Bool.false_eq_true, if_false] at h
  cases h7 : PFloat.lt (netHours tin tout bl ot) (PFloat.fin 0) with
  | true => simp only [h7, if_true] at h; exact absurd h (by simp)
  | false =>
  simp only [h7, Bool.false_eq_true, if_false] at h
  cases h8 : PFloat.lt (PFloat.fin 16) (netHours tin tout bl ot) with
  | true => simp only [h8, if_true] at h; exact absurd h (by simp)
  | false =>
  simp only [h8, Bool.false_eq_true, if_false, Except.ok.injEq] at h
  exact ⟨wd, tin, tout, bl, ot, rfl, rfl, rfl, rfl, rfl, h6, h7, h8, h.symm⟩

/-- The interval hours exactly as the specification words them: elapsed
time from clock-in to clock-out after advancing clock-out by one calendar
day whenever clock-out is less than or equal to clock-in, in fractional
hours. -/
def claimIntervalHours (tin tout : Nat × Nat) : ℚ :=
  let a := 60 * tin.1 + tin.2
  let b := 60 * tout.1 + tout.2
  (((if b ≤ a then b + 1440 else b : Nat) : ℚ) - (a : ℚ)) / 60

theorem netHours_eq_claim (tin tout : Nat × Nat) (bl : List PFloat) (ot : PFloat) :
    netHours tin tout bl ot =
      PFloat.add (PFloat.sub (PFloat.fin (claimIntervalHours tin tout)) (pySum bl)) ot := rfl

theorem calc_work_hours_ok_inv (f : Frame RawRow) (out : Frame NRecord)
    (h : calc_work_hours f = Except.ok out) :
    ∃ normalized, exMapM calcRow f.rows = Except.ok normalized ∧
      out = ⟨dailyCols, List.insertionSort nrLe normalized⟩ := by
  unfold calc_work_hours at h
  by_cases hm : requiredRawSorted.filter (fun c => decide (c ∉ f.cols)) ≠ []
  · rw [if_pos hm] at h
    exact absurd h (by simp)
  · rw [if_neg hm] at h
    cases hmap : exMapM calcRow f.rows with
    | error e => simp only [hmap] at h; exact absurd h (by simp)
    | ok normalized =>
      simp only [hmap] at h
      refine ⟨normalized, rfl, ?_⟩
      by_cases hnil : normalized = []
      · rw [if_pos hnil] at h
        subst hnil
        cases h
        rfl
      · rw [if_neg hnil] at h
        cases h
        rfl

/-- The cross-midnight example row of the specification: clock-in 19:00,
clock-out 04:00, one hour of breaks, no overtime. -/
def nightRow : RawRow :=
  { date := "01/07/2024"
    employee_id := "E002"
    name := "Bob"
    shift_label := Option.some "Night"
    clock_in := "19:00"
    clock_out := "04:00"
    breaks := PyVal.num (PFloat.fin 1)
    ot_hours := PyVal.num (PFloat.fin 0) }

/-- C1: for every raw row that `calc_work_hours` accepts (each emitted
record arises from `calcRow` on some input row), the emitted `work_hours`
equals `interval_hours - break_total + ot_hours` rounded to two decimals,
where the interval advances clock-out by exactly one calendar day whenever
clock-out is less than or equal to clock-in; in particular the overnight
row 19:00-04:00 with breaks 1 and ot 0 yields work_hours 8.0. -/
theorem c1_work_hours_formula :
    (∀ (f : Frame RawRow) (out : Frame NRecord), calc_work_hours f = Except.ok out →
      ∀ rec ∈ out.rows, ∃ row ∈ f.rows, calcRow row = Except.ok rec) ∧
    (∀ (row : RawRow) (rec : NRecord) (tin tout : Nat × Nat) (bl : List PFloat)
        (ot : PFloat),
      calcRow row = Except.ok rec →
      parse_time row.clock_in = Except.ok tin →
      parse_time row.clock_out = Except.ok tout →
      _flatten_breaks row.breaks = Except.ok bl →
      _ensure_float row.ot_hours "ot_hours" = Except.ok ot →
      rec.work_hours =
        pround2 (PFloat.add (PFloat.sub (PFloat.fin (claimIntervalHours tin tout))
          (pySum bl)) ot)) ∧
    (calcRow nightRow).map NRecord.work_hours = Except.ok (PFloat.fin 8) := by
  refine ⟨?_, ?_, by with_unfolding_all rfl⟩
  · intro f out h rec hrec
    rcases calc_work_hours_ok_inv f out h with ⟨normalized, hmap, hout⟩
    rw [hout] at hrec
    have hmem : rec ∈ normalized :=
      (List.perm_insertionSort nrLe normalized).mem_iff.mp hrec
    exact exMapM_ok_mem calcRow f.rows normalized hmap rec hmem
  · intro row rec tin tout bl ot h htin htout hbl hot
    rcases calcRow_ok_inv row rec h with
      ⟨wd, tin', tout', bl', ot', h1, h2, h3, h4, h5, _, _, _, hrec⟩
    have etin : tin' = tin := by
      have := h2.symm.trans htin
      exact (Except.ok.injEq _ _).mp this
    have etout : tout' = tout := by
      have := h3.symm.trans htout
      exact (Except.ok.injEq _ _).mp this
    have ebl : bl' = bl := by
      have := h4.symm.trans hbl
      exact (Except.ok.injEq _ _).mp this
    have eot : ot' = ot := by
      have := h5.symm.trans hot
      exact (Except.ok.injEq _ _).mp this
    rw [etin, etout, ebl, eot] at hrec
    rw [hrec]
    show pround2 (netHours tin tout bl ot) = _
    rw [netHours_eq_claim]

/-- The record the pipeline emits for `nightRow`. -/
def nightRec : NRecord :=
  { date := 739068
    employee_id := "E002"
    name := "Bob"
    shift_label := Option.some "Night"
    clock_in := "19:00"
    clock_out := "04:00"
    break_total := PFloat.fin 1
    ot_hours := PFloat.fin 0
    work_hours := PFloat.fin 8 }

/-- Witness for C1 at the overnight example row. -/
theorem c1_work_hours_formula_witness :
    nightRec.work_hours =
      pround2 (PFloat.add (PFloat.sub (PFloat.fin (claimIntervalHours (19, 0) (4, 0)))
        (pySum [PFloat.fin 1])) (PFloat.fin 0)) :=
  c1_work_hours_formula.2.1 nightRow nightRec (19, 0) (4, 0) [PFloat.fin 1] (PFloat.fin 0)
    (by with_unfolding_all rfl) (by with_unfolding_all rfl) (by with_unfolding_all rfl)
    (by with_unfolding_all rfl) (by with_unfolding_all rfl)

theorem rndHalfEven_bounds (r : ℚ) (B : ℤ) (h0 : 0 ≤ r) (hB : r ≤ (B : ℚ)) :
    0 ≤ rndHalfEven r ∧ rndHalfEven r ≤ B := by
  unfold rndHalfEven
  have hf0 : 0 ≤ ⌊r⌋ := Int.floor_nonneg.mpr h0
  have hfB : ⌊r⌋ ≤ B := by
    have h := Int.floor_le_floor hB
    simpa using h
  by_cases h1 : r - ⌊r⌋ < 1/2
  · simp only [if_pos h1]
    exact ⟨hf0, hfB⟩
  · have hge : (1 : ℚ)/2 ≤ r - ⌊r⌋ := le_of_not_lt h1
    have hlt : (⌊r⌋ : ℚ) < r := by linarith
    have hfltB : ⌊r⌋ < B := by
      have hcast : (⌊r⌋ : ℚ) < (B : ℚ) := lt_of_lt_of_le hlt hB
      exact_mod_cast hcast
    by_cases h2 : (1 : ℚ)/2 < r - ⌊r⌋
    · simp only [if_neg h1, if_pos h2]
      omega
    · simp only [if_neg h1, if_neg h2]
      by_cases h3 : ⌊r⌋ % 2 = 0
      · simp only [if_pos h3]
        exact ⟨hf0, hfB⟩
      · simp only [if_neg h3]
        omega

theorem pround2_of_guards (net : PFloat)
    (h7 : PFloat.lt net (PFloat.fin 0) = false)
    (h8 : PFloat.lt (PFloat.fin 16) net = false) :
    pround2 net = PFloat.nan ∨
      (PFloat.le (PFloat.fin 0) (pround2 net) = true ∧
       PFloat.le (pround2 net) (PFloat.fin 16) = true) := by
  cases net with
  | nan => exact Or.inl rfl
  | inf => simp [PFloat.lt] at h8
  | ninf => simp [PFloat.lt] at h7
  | fin q =>
    right
    have hq0 : 0 ≤ q := by
      have := of_decide_eq_false h7
      simpa [PFloat.lt] using not_lt.mp (by simpa [PFloat.lt] using this)
    have hq16 : q ≤ 16 := by
      have := of_decide_eq_false h8
      simpa [PFloat.lt] using not_lt.mp (by simpa [PFloat.lt] using this)
    have hb := rndHalfEven_bounds (100 * q) 1600 (by linarith) (by push_cast; linarith)
    have hv0 : (0 : ℚ) ≤ (rndHalfEven (100 * q) : ℚ) / 100 := by
      have : (0 : ℚ) ≤ (rndHalfEven (100 * q) : ℚ) := by exact_mod_cast hb.1
      linarith
    have hv16 : (rndHalfEven (100 * q) : ℚ) / 100 ≤ 16 := by
      have : (rndHalfEven (100 * q) : ℚ) ≤ 1600 := by exact_mod_cast hb.2
      linarith
    constructor
    · show decide ((0 : ℚ) ≤ (rndHalfEven (100 * q) : ℚ) / 100) = true
      exact decide_eq_true hv0
    · show decide ((rndHalfEven (100 * q) : ℚ) / 100 ≤ 16) = true
      exact decide_eq_true hv16

/-- A raw row whose overtime cell is the string "nan": `float("nan")`
succeeds, every bound comparison on the resulting net hours is false, and a
record with NaN work_hours is emitted. -/
def nanRow : RawRow :=
  { date := "01/07/2024"
    employee_id := "E1"
    name := "A"
    shift_label := Option.none
    clock_in := "08:00"
    clock_out := "17:00"
    breaks := PyVal.num (PFloat.fin 1)
    ot_hours := PyVal.str "nan" }

/-- The record `calc_work_hours` emits for `nanRow`. -/
def nanRec : NRecord :=
  { date := 739068
    employee_id := "E1"
    name := "A"
    shift_label := Option.none
    clock_in := "08:00"
    clock_out := "17:00"
    break_total := PFloat.fin 1
    ot_hours := PFloat.nan
    work_hours := PFloat.nan }

/-- The raw input columns, as the CSV loader and the CLI provide them. -/
def rawCols : List String :=
  ["date", "employee_id", "name", "clock_in", "clock_out", "breaks",
   "ot_hours", "shift_label"]

/-- C2 counterexample: a row whose `ot_hours` cell is the string "nan" is
accepted by `calc_work_hours` and yields an emitted record whose
`work_hours` is NaN, which does not satisfy `0 ≤ work_hours`: the claimed
invariant fails for this input. -/
theorem c2_counterexample_nan :
    calc_work_hours ⟨rawCols, [nanRow]⟩ = Except.ok ⟨dailyCols, [nanRec]⟩ ∧
    nanRec.work_hours = PFloat.nan ∧
    PFloat.le (PFloat.fin 0) nanRec.work_hours = false :=
  ⟨by with_unfolding_all rfl, rfl, rfl⟩

/-- C2 (amended): `calc_work_hours` raises the negative-net or
exceeds-16-hours validation error whenever the computed net hours compare
below 0 resp. above 16; and every emitted record's `work_hours` is either
NaN (possible only when a NaN `breaks` or `ot_hours` value reaches the
computation, as NaN fails every comparison) or lies in `[0, 16]`. -/
theorem c2_work_hours_invariant :
    (∀ (row : RawRow) (wd : ℤ) (tin tout : Nat × Nat) (bl : List PFloat) (ot : PFloat),
      parse_date row.date = Except.ok wd →
      parse_time row.clock_in = Except.ok tin →
      parse_time row.clock_out = Except.ok tout →
      _flatten_breaks row.breaks = Except.ok bl →
      _ensure_float row.ot_hours "ot_hours" = Except.ok ot →
      PFloat.lt ot (PFloat.fin 0) = false →
      (PFloat.lt (netHours tin tout bl ot) (PFloat.fin 0) = true →
        calcRow row = Except.error (Err.validation VErr.negNet)) ∧
      (PFloat.lt (netHours tin tout bl ot) (PFloat.fin 0) = false →
       PFloat.lt (PFloat.fin 16) (netHours tin tout bl ot) = true →
        calcRow row = Except.error (Err.validation VErr.excessNet))) ∧
    (∀ (row : RawRow) (rec : NRecord), calcRow row = Except.ok rec →
      rec.work_hours = PFloat.nan ∨
        (PFloat.le (PFloat.fin 0) rec.work_hours = true ∧
         PFloat.le rec.work_hours (PFloat.fin 16) = true)) := by
  constructor
  · intro row wd tin tout bl ot h1 h2 h3 h4 h5 h6
    constructor
    · intro hneg
      unfold calcRow
      simp only [h1, h2, h3, h4, h5, h6, hneg, Bool.false_eq_true, if_false, if_true]
    · intro hneg hexc
      unfold calcRow
      simp only [h1, h2, h3, h4, h5, h6, hneg, hexc, Bool.false_eq_true, if_false, if_true]
  · intro row rec h
    rcases calcRow_ok_inv row rec h with
      ⟨wd, tin, tout, bl, ot, _, _, _, _, _, _, h7, h8, hrec⟩
    have hwh : rec.work_hours = pround2 (netHours tin tout bl ot) := by
      rw [hrec]; rfl
    rw [hwh]
    exact pround2_of_guards _ h7 h8

/-- Witness for C2 at the overnight example row. -/
theorem c2_work_hours_invariant_witness :
    nightRec.work_hours = PFloat.nan ∨
      (PFloat.le (PFloat.fin 0) nightRec.work_hours = true ∧
       PFloat.le nightRec.work_hours (PFloat.fin 16) = true) :=
  c2_work_hours_invariant.2 nightRow nightRec (by with_unfolding_all rfl)

theorem splitCh_ne_nil (c : Char) : ∀ l : List Char, splitCh c l ≠ [] := by
  intro l
  cases l with
  | nil => simp [splitCh]
  | cons x xs =>
    unfold splitCh
    cases splitCh c xs with
    | nil => simp
    | cons a rest =>
      by_cases h : x = c <;> simp [h]

theorem splitCh_single_fwd (c : Char) :
    ∀ (l t : List Char), splitCh c l = [t] → t = l ∧ c ∉ l := by
  intro l
  induction l with
  | nil =>
    intro t h
    unfold splitCh at h
    cases h
    simp
  | cons x xs ih =>
    intro t h
    unfold splitCh at h
    cases hxs : splitCh c xs with
    | nil => exact absurd hxs (splitCh_ne_nil c xs)
    | cons a0 rest =>
      simp only [hxs] at h
      by_cases hx : x = c
      · rw [if_pos hx] at h
        cases h
      · rw [if_neg hx] at h
        cases h
        rcases ih a0 hxs with ⟨h1, h2⟩
        subst h1
        refine ⟨rfl, ?_⟩
        simp only [List.mem_cons]
        rintro (hc | hc)
        · exact hx hc.symm
        · exact h2 hc

theorem splitCh_single_bwd (c : Char) :
    ∀ l : List Char, c ∉ l → splitCh c l = [l] := by
  intro l
  induction l with
  | nil => intro _; rfl
  | cons x xs ih =>
    intro h
    have hx : x ≠ c := fun hc => h (by simp [hc])
    have hxs : c ∉ xs := fun hc => h (by simp [hc])
    unfold splitCh
    simp only [ih hxs]
    rw [if_neg hx]

theorem splitCh_pair_fwd (c : Char) :
    ∀ (l a b : List Char), splitCh c l = [a, b] →
      l = a ++ c :: b ∧ c ∉ a ∧ c ∉ b := by
  intro l
  induction l with
  | nil =>
    intro a b h
    unfold splitCh at h
    cases h
  | cons x xs ih =>
    intro a b h
    unfold splitCh at h
    cases hxs : splitCh c xs with
    | nil => exact absurd hxs (splitCh_ne_nil c xs)
    | cons a0 rest =>
      simp only [hxs] at h
      by_cases hx : x = c
      · rw [if_pos hx] at h
        cases h
        rcases splitCh_single_fwd c xs b hxs with ⟨h1, h2⟩
        subst h1
        exact ⟨by rw [hx]; rfl, by simp, h2⟩
      · rw [if_neg hx] at h
        cases h
        rcases ih a0 b hxs with ⟨h1, h2, h3⟩
        subst h1
        refine ⟨rfl, ?_, h3⟩
        simp only [List.mem_cons]
        rintro (hc | hc)
        · exact hx hc.symm
        · exact h2 hc

theorem splitCh_pair_bwd (c : Char) :
    ∀ (a b : List Char), c ∉ a → c ∉ b → splitCh c (a ++ c :: b) = [a, b] := by
  intro a
  induction a with
  | nil =>
    intro b _ hb
    show splitCh c (c :: b) = [[], b]
    unfold splitCh
    simp only [splitCh_single_bwd c b hb]
    simp
  | cons x a2 ih =>
    intro b ha hb
    have hx : x ≠ c := fun hc => ha (by simp [hc])
    have ha2 : c ∉ a2 := fun hc => ha (by simp [hc])
    show splitCh c (x :: (a2 ++ c :: b)) = [x :: a2, b]
    unfold splitCh
    simp only [ih b ha2 hb]
    rw [if_neg hx]

theorem allDigits_not_colon {a : List Char} (h : allDigits a = true) : ':' ∉ a := by
  intro hc
  have h2 := List.all_eq_true.mp h ':' hc
  simp [Char.isDigit] at h2

theorem parse_time_pair (s : String) (a b : List Char)
    (hsp : splitCh ':' (stripChars s.data) = [a, b]) :
    parse_time s =
      (if allDigits a = true ∧ (a.length = 1 ∨ a.length = 2) ∧ digitsVal a ≤ 23 ∧
          allDigits b = true ∧ (b.length = 1 ∨ b.length = 2) ∧ digitsVal b ≤ 59 then
        Except.ok (digitsVal a, digitsVal b)
      else Except.error (Err.validation (VErr.badTime s))) := by
  unfold parse_time
  rw [hsp]

/-- The strict two-digit 24-hour `HH:MM` pattern, as the specification
words it: exactly two digit characters, a colon, and two digit characters,
with hour at most 23 and minute at most 59. -/
def strictHHMM (s : String) : Bool :=
  match s.data with
  | [h1, h2, c, m1, m2] =>
    c == ':' && h1.isDigit && h2.isDigit && m1.isDigit && m2.isDigit &&
      decide (10 * (h1.toNat - 48) + (h2.toNat - 48) ≤ 23) &&
      decide (10 * (m1.toNat - 48) + (m2.toNat - 48) ≤ 59)
  | _ => false

/-- C4 counterexample: `parse_time` accepts "8:30", which does not match
the strict two-digit `HH:MM` pattern (while "08:30" does), so the accepted
language is strictly larger than the claimed pattern. -/
theorem c4_counterexample_single_digit :
    parse_time "8:30" = Except.ok (8, 30) ∧ strictHHMM "8:30" = false ∧
    parse_time "08:30" = Except.ok (8, 30) ∧ strictHHMM "08:30" = true :=
  ⟨by decide, by decide, by decide, by decide⟩

/-- C4 (amended): `parse_time` strips surrounding whitespace and then
accepts exactly the strings of the form `H:M` where the hour and minute
tokens are one or two digits with hour at most 23 and minute at most 59
(the `strptime` `%H:%M` semantics); every other input - including
out-of-range values such as "25:00" - yields the validation error carrying
the offending text, with no coercion or default substitution. -/
theorem c4_parse_time_acceptance :
    (∀ s : String,
      (∃ h m, parse_time s = Except.ok (h, m)) ∨
        parse_time s = Except.error (Err.validation (VErr.badTime s))) ∧
    (∀ (s : String) (h m : Nat), parse_time s = Except.ok (h, m) →
      h ≤ 23 ∧ m ≤ 59) ∧
    (∀ (s : String) (a b : List Char),
      allDigits a = true → allDigits b = true →
      (a.length = 1 ∨ a.length = 2) → (b.length = 1 ∨ b.length = 2) →
      stripChars s.data = a ++ ':' :: b →
      (parse_time s = Except.ok (digitsVal a, digitsVal b) ↔
        (digitsVal a ≤ 23 ∧ digitsVal b ≤ 59))) ∧
    (∀ (s : String) (h m : Nat), parse_time s = Except.ok (h, m) →
      ∃ a b : List Char, stripChars s.data = a ++ ':' :: b ∧
        allDigits a = true ∧ allDigits b = true ∧
        (a.length = 1 ∨ a.length = 2) ∧ (b.length = 1 ∨ b.length = 2) ∧
        h = digitsVal a ∧ m = digitsVal b) ∧
    parse_time "25:00" = Except.error (Err.validation (VErr.badTime "25:00")) := by
  refine ⟨?_, ?_, ?_, ?_, by decide⟩
  · intro s
    cases hsp : splitCh ':' (stripChars s.data) with
    | nil =>
      refine Or.inr ?_
      unfold parse_time
      rw [hsp]
    | cons a t =>
      cases t with
      | nil =>
        refine Or.inr ?_
        unfold parse_time
        rw [hsp]
      | cons b t2 =>
        cases t2 with
        | nil =>
          by_cases hcond : allDigits a = true ∧ (a.length = 1 ∨ a.length = 2) ∧
              digitsVal a ≤ 23 ∧ allDigits b = true ∧
              (b.length = 1 ∨ b.length = 2) ∧ digitsVal b ≤ 59
          · refine Or.inl ⟨digitsVal a, digitsVal b, ?_⟩
            rw [parse_time_pair s a b hsp, if_pos hcond]
          · refine Or.inr ?_
            rw [parse_time_pair s a b hsp, if_neg hcond]
        | cons c3 t3 =>
          refine Or.inr ?_
          unfold parse_time
          rw [hsp]
  · intro s h m hok
    unfold parse_time at hok
    cases hsp : splitCh ':' (stripChars s.data) with
    | nil => simp only [hsp] at hok; exact absurd hok (by simp)
    | cons a t =>
      cases t with
      | nil => simp only [hsp] at hok; exact absurd hok (by simp)
      | cons b t2 =>
        cases t2 with
        | nil =>
          simp only [hsp] at hok
          by_cases hcond : allDigits a = true ∧ (a.length = 1 ∨ a.length = 2) ∧
              digitsVal a ≤ 23 ∧ allDigits b = true ∧
              (b.length = 1 ∨ b.length = 2) ∧ digitsVal b ≤ 59
          · rw [if_pos hcond] at hok
            rcases hcond with ⟨_, _, h23, _, _, h59⟩
            cases hok
            exact ⟨h23, h59⟩
          · rw [if_neg hcond] at hok
            exact absurd hok (by simp)
        | cons c3 t3 => simp only [hsp] at hok; exact absurd hok (by simp)
  · intro s a b hda hdb hla hlb hdecomp
    have hsp : splitCh ':' (stripChars s.data) = [a, b] := by
      rw [hdecomp]
      exact splitCh_pair_bwd ':' a b (allDigits_not_colon hda) (allDigits_not_colon hdb)
    rw [parse_time_pair s a b hsp]
    constructor
    · intro hok
      by_cases hcond : allDigits a = true ∧ (a.length = 1 ∨ a.length = 2) ∧
          digitsVal a ≤ 23 ∧ allDigits b = true ∧
          (b.length = 1 ∨ b.length = 2) ∧ digitsVal b ≤ 59
      · rcases hcond with ⟨_, _, h23, _, _, h59⟩
        exact ⟨h23, h59⟩
      · rw [if_neg hcond] at hok
        exact absurd hok (by simp)
    · intro hbnd
      rw [if_pos ⟨hda, hla, hbnd.1, hdb, hlb, hbnd.2⟩]
  · intro s h m hok
    unfold parse_time at hok
    cases hsp : splitCh ':' (stripChars s.data) with
    | nil => simp only [hsp] at hok; exact absurd hok (by simp)
    | cons a t =>
      cases t with
      | nil => simp only [hsp] at hok; exact absurd hok (by simp)
      | cons b t2 =>
        cases t2 with
        | nil =>
          simp only [hsp] at hok
          by_cases hcond : allDigits a = true ∧ (a.length = 1 ∨ a.length = 2) ∧
              digitsVal a ≤ 23 ∧ allDigits b = true ∧
              (b.length = 1 ∨ b.length = 2) ∧ digitsVal b ≤ 59
          · rw [if_pos hcond] at hok
            rcases hcond with ⟨hda, hla, _, hdb, hlb, _⟩
            rcases splitCh_pair_fwd ':' (stripChars s.data) a b hsp with ⟨hd, _, _⟩
            cases hok
            exact ⟨a, b, hd, hda, hdb, hla, hlb, rfl, rfl⟩
          · rw [if_neg hcond] at hok
            exact absurd hok (by simp)
        | cons c3 t3 => simp only [hsp] at hok; exact absurd hok (by simp)

/-- Witness for C4 at the zero-padded string "08:30". -/
theorem c4_parse_time_acceptance_witness :
    parse_time "08:30" = Except.ok (digitsVal ['0', '8'], digitsVal ['3', '0']) ↔
      (digitsVal ['0', '8'] ≤ 23 ∧ digitsVal ['3', '0'] ≤ 59) :=
  c4_parse_time_acceptance.2.2.1 "08:30" ['0', '8'] ['3', '0']
    (by decide) (by decide) (by decide) (by decide) (by decide)

theorem convStrItem_error (it : PyVal) (e : Err)
    (h : convStrItem it = Except.error e) : e = Err.py PyErr.valueError := by
  cases it with
  | num x => exact absurd h (by simp [convStrItem])
  | bool b => exact absurd h (by simp [convStrItem])
  | none =>
    unfold convStrItem at h
    cases hp : pyFloatOfString (pyStrip (pyStr PyVal.none)) with
    | some x => simp only [hp] at h; exact absurd h (by simp)
    | none => simp only [hp] at h; exact ((Except.error.injEq _ _).mp h).symm
  | str s =>
    unfold convStrItem at h
    cases hp : pyFloatOfString (pyStrip (pyStr (PyVal.str s))) with
    | some x => simp only [hp] at h; exact absurd h (by simp)
    | none => simp only [hp] at h; exact ((Except.error.injEq _ _).mp h).symm
  | list xs =>
    unfold convStrItem at h
    cases hp : pyFloatOfString (pyStrip (pyStr (PyVal.list xs))) with
    | some x => simp only [hp] at h; exact absurd h (by simp)
    | none => simp only [hp] at h; exact ((Except.error.injEq _ _).mp h).symm
  | other =>
    unfold convStrItem at h
    cases hp : pyFloatOfString (pyStrip (pyStr PyVal.other)) with
    | some x => simp only [hp] at h; exact absurd h (by simp)
    | none => simp only [hp] at h; exact ((Except.error.injEq _ _).mp h).symm

theorem convCollItem_error (it : PyVal) (e : Err)
    (h : convCollItem it = Except.error e) :
    e = Err.py PyErr.valueError ∨ e = Err.py PyErr.typeError := by
  cases it with
  | num x => exact absurd h (by simp [convCollItem])
  | bool b => exact absurd h (by simp [convCollItem])
  | none => exact Or.inr ((Except.error.injEq _ _).mp h.symm)
  | str s =>
    unfold convCollItem at h
    cases hp : pyFloatOfString s with
    | some x => simp only [hp] at h; exact absurd h (by simp)
    | none =>
      simp only [hp] at h
      exact Or.inl ((Except.error.injEq _ _).mp h).symm
  | list xs => exact Or.inr ((Except.error.injEq _ _).mp h.symm)
  | other => exact Or.inr ((Except.error.injEq _ _).mp h.symm)

theorem convStrItems_cases :
    ∀ items : List PyVal,
      (∀ (l : List PFloat), convStrItems items = Except.ok l →
        ∀ x ∈ l, PFloat.lt x (PFloat.fin 0) = false) ∧
      (∀ e : Err, convStrItems items = Except.error e →
        e = Err.validation VErr.negBreak ∨ e = Err.py PyErr.valueError) := by
  intro items
  induction items with
  | nil =>
    refine ⟨?_, ?_⟩
    · intro l h x hx
      cases h
      cases hx
    · intro e h
      cases h
  | cons it rest ih =>
    refine ⟨?_, ?_⟩
    · intro l h x hx
      unfold convStrItems at h
      cases hit : convStrItem it with
      | error e => simp only [hit] at h; exact absurd h (by simp)
      | ok cand =>
        simp only [hit] at h
        cases hlt : PFloat.lt cand (PFloat.fin 0) with
        | true => rw [if_pos hlt] at h; exact absurd h (by simp)
        | false =>
          rw [if_neg (by simp [hlt])] at h
          cases hrest : convStrItems rest with
          | error e => simp only [hrest] at h; exact absurd h (by simp)
          | ok l2 =>
            simp only [hrest] at h
            cases h
            rcases List.mem_cons.mp hx with h1 | h1
            · rw [h1]; exact hlt
            · exact ih.1 l2 hrest x h1
    · intro e h
      unfold convStrItems at h
      cases hit : convStrItem it with
      | error e2 =>
        simp only [hit] at h
        have he : e2 = e := (Except.error.injEq _ _).mp h
        exact Or.inr (he ▸ convStrItem_error it e2 hit)
      | ok cand =>
        simp only [hit] at h
        cases hlt : PFloat.lt cand (PFloat.fin 0) with
        | true =>
          rw [if_pos hlt] at h
          exact Or.inl ((Except.error.injEq _ _).mp h).symm
        | false =>
          rw [if_neg (by simp [hlt])] at h
          cases hrest : convStrItems rest with
          | error e2 =>
            simp only [hrest] at h
            have he : e2 = e := (Except.error.injEq _ _).mp h
            exact he ▸ ih.2 e2 hrest
          | ok l2 => simp only [hrest] at h; exact absurd h (by simp)

theorem convCollItems_cases :
    ∀ items : List PyVal,
      (∀ (l : List PFloat), convCollItems items = Except.ok l →
        ∀ x ∈ l, PFloat.lt x (PFloat.fin 0) = false) ∧
      (∀ e : Err, convCollItems items = Except.error e →
        e = Err.validation VErr.negBreak ∨ e = Err.py PyErr.valueError ∨
          e = Err.py PyErr.typeError) := by
  intro items
  induction items with
  | nil =>
    refine ⟨?_, ?_⟩
    · intro l h x hx
      cases h
      cases hx
    · intro e h
      cases h
  | cons it rest ih =>
    refine ⟨?_, ?_⟩
    · intro l h x hx
      unfold convCollItems at h
      cases hit : convCollItem it with
      | error e => simp only [hit] at h; exact absurd h (by simp)
      | ok cand =>
        simp only [hit] at h
        cases hlt : PFloat.lt cand (PFloat.fin 0) with
        | true => rw [if_pos hlt] at h; exact absurd h (by simp)
        | false =>
          rw [if_neg (by simp [hlt])] at h
          cases hrest : convCollItems rest with
          | error e => simp only [hrest] at h; exact absurd h (by simp)
          | ok l2 =>
            simp only [hrest] at h
            cases h
            rcases List.mem_cons.mp hx with h1 | h1
            · rw [h1]; exact hlt
            · exact ih.1 l2 hrest x h1
    · intro e h
      unfold convCollItems at h
      cases hit : convCollItem it with
      | error e2 =>
        simp only [hit] at h
        have he : e2 = e := (Except.error.injEq _ _).mp h
        rcases convCollItem_error it e2 hit with h1 | h1
        · exact Or.inr (Or.inl (he ▸ h1))
        · exact Or.inr (Or.inr (he ▸ h1))
      | ok cand =>
        simp only [hit] at h
        cases hlt : PFloat.lt cand (PFloat.fin 0) with
        | true =>
          rw [if_pos hlt] at h
          exact Or.inl ((Except.error.injEq _ _).mp h).symm
        | false =>
          rw [if_neg (by simp [hlt])] at h
          cases hrest : convCollItems rest with
          | error e2 =>
            simp only [hrest] at h
            have he : e2 = e := (Except.error.injEq _ _).mp h
            exact he ▸ ih.2 e2 hrest
          | ok l2 => simp only [hrest] at h; exact absurd h (by simp)

/-- C5 counterexample: the break string "abc" is not valid JSON, falls back
to comma-splitting, and `float("abc")` then raises an uncaught
`ValueError` - not an `AttendanceValidationError` of either kind. -/
theorem c5_counterexample_uncaught_valueerror :
    _flatten_breaks (PyVal.str "abc") = Except.error (Err.py PyErr.valueError) ∧
    Err.py PyErr.valueError ≠ Err.validation VErr.negBreak ∧
    Err.py PyErr.valueError ≠ Err.validation VErr.unsupportedBreak :=
  ⟨by with_unfolding_all rfl, fun h => Err.noConfusion h, fun h => Err.noConfusion h⟩

/-- The item list the string branch of `_flatten_breaks` feeds to its
conversion loop: the decoded JSON list (a non-list decode is wrapped), or
on decode failure the comma/semicolon-split stripped tokens. -/
def strBreakItems (cleaned : String) : List PyVal :=
  match jsonLoads cleaned with
  | Option.some (PyVal.list xs) => xs
  | Option.some v => [v]
  | Option.none =>
    ((cleaned.replace ";" ",").splitOn ",").map (fun t => PyVal.str (pyStrip t))

theorem flatten_str_items (s : String) (h : pyStrip s ≠ "") :
    _flatten_breaks (PyVal.str s) = convStrItems (strBreakItems (pyStrip s)) := by
  simp only [_flatten_breaks]
  rw [if_neg h]
  rfl

theorem convStrItems_neg :
    ∀ (pre : List PyVal) (it : PyVal) (post : List PyVal) (cand : PFloat),
      (∀ j ∈ pre, ∃ c, convStrItem j = Except.ok c ∧
        PFloat.lt c (PFloat.fin 0) = false) →
      convStrItem it = Except.ok cand →
      PFloat.lt cand (PFloat.fin 0) = true →
      convStrItems (pre ++ it :: post) =
        Except.error (Err.validation VErr.negBreak) := by
  intro pre
  induction pre with
  | nil =>
    intro it post cand _ hit hneg
    show convStrItems (it :: post) = _
    unfold convStrItems
    simp only [hit]
    rw [if_pos hneg]
  | cons j pre ih =>
    intro it post cand hpre hit hneg
    rcases hpre j (List.mem_cons_self j pre) with ⟨c, hc, hcn⟩
    show convStrItems (j :: (pre ++ it :: post)) = _
    unfold convStrItems
    simp only [hc]
    rw [if_neg (by simp [hcn])]
    rw [ih it post cand (fun j2 hj2 => hpre j2 (List.mem_cons_of_mem j hj2)) hit hneg]

theorem convCollItems_neg :
    ∀ (pre : List PyVal) (it : PyVal) (post : List PyVal) (cand : PFloat),
      (∀ j ∈ pre, ∃ c, convCollItem j = Except.ok c ∧
        PFloat.lt c (PFloat.fin 0) = false) →
      convCollItem it = Except.ok cand →
      PFloat.lt cand (PFloat.fin 0) = true →
      convCollItems (pre ++ it :: post) =
        Except.error (Err.validation VErr.negBreak) := by
  intro pre
  induction pre with
  | nil =>
    intro it post cand _ hit hneg
    show convCollItems (it :: post) = _
    unfold convCollItems
    simp only [hit]
    rw [if_pos hneg]
  | cons j pre ih =>
    intro it post cand hpre hit hneg
    rcases hpre j (List.mem_cons_self j pre) with ⟨c, hc, hcn⟩
    show convCollItems (j :: (pre ++ it :: post)) = _
    unfold convCollItems
    simp only [hc]
    rw [if_neg (by simp [hcn])]
    rw [ih it post cand (fun j2 hj2 => hpre j2 (List.mem_cons_of_mem j hj2)) hit hneg]

/-- C5 (amended): break normalization fails with the negativity validation
error naming the breach on any negative value at any stage - a negative
number cell, a negative converted item of the string branch (JSON or
comma/semicolon fallback, the branch being exactly the conversion loop on
`strBreakItems`), or a negative converted element of a collection, in each
case after the earlier items converted to non-negative floats (the loop is
fail-fast); the generic unsupported-representation validation error is
raised exactly on values of unsupported shape; every successful result
contains only non-negative floats; but a string token or collection element
that `float(...)` cannot convert raises an uncaught `ValueError`/`TypeError`
instead of a validation error. -/
theorem c5_flatten_error_classification :
    (∀ v : PyVal,
      _flatten_breaks v = Except.error (Err.validation VErr.unsupportedBreak) ↔
        v = PyVal.other) ∧
    (∀ (v : PyVal) (l : List PFloat), _flatten_breaks v = Except.ok l →
      ∀ x ∈ l, PFloat.lt x (PFloat.fin 0) = false) ∧
    (∀ (v : PyVal) (e : Err), _flatten_breaks v = Except.error e →
      e = Err.validation VErr.negBreak ∨ e = Err.validation VErr.unsupportedBreak ∨
        e = Err.py PyErr.valueError ∨ e = Err.py PyErr.typeError) ∧
    (∀ x : PFloat, x ≠ PFloat.nan → PFloat.lt x (PFloat.fin 0) = true →
      _flatten_breaks (PyVal.num x) = Except.error (Err.validation VErr.negBreak)) ∧
    (∀ (pre : List PyVal) (it : PyVal) (post : List PyVal) (cand : PFloat),
      (∀ j ∈ pre, ∃ c, convCollItem j = Except.ok c ∧
        PFloat.lt c (PFloat.fin 0) = false) →
      convCollItem it = Except.ok cand →
      PFloat.lt cand (PFloat.fin 0) = true →
      _flatten_breaks (PyVal.list (pre ++ it :: post)) =
        Except.error (Err.validation VErr.negBreak)) ∧
    (∀ s : String, pyStrip s ≠ "" →
      _flatten_breaks (PyVal.str s) = convStrItems (strBreakItems (pyStrip s))) ∧
    (∀ (pre : List PyVal) (it : PyVal) (post : List PyVal) (cand : PFloat),
      (∀ j ∈ pre, ∃ c, convStrItem j = Except.ok c ∧
        PFloat.lt c (PFloat.fin 0) = false) →
      convStrItem it = Except.ok cand →
      PFloat.lt cand (PFloat.fin 0) = true →
      convStrItems (pre ++ it :: post) =
        Except.error (Err.validation VErr.negBreak)) ∧
    (_flatten_breaks (PyVal.num (PFloat.fin (-1))) =
        Except.error (Err.validation VErr.negBreak) ∧
      _flatten_breaks (PyVal.str "-1") =
        Except.error (Err.validation VErr.negBreak) ∧
      _flatten_breaks (PyVal.str "[1, -2]") =
        Except.error (Err.validation VErr.negBreak) ∧
      _flatten_breaks (PyVal.str "0.5; -0.25") =
        Except.error (Err.validation VErr.negBreak) ∧
      _flatten_breaks (PyVal.list [PyVal.num (PFloat.fin 1), PyVal.num (PFloat.fin (-3))]) =
        Except.error (Err.validation VErr.negBreak)) := by
  have herr : ∀ (v : PyVal) (e : Err), _flatten_breaks v = Except.error e →
      (e = Err.validation VErr.negBreak ∨ e = Err.py PyErr.valueError ∨
        e = Err.py PyErr.typeError) ∨ (e = Err.validation VErr.unsupportedBreak ∧
        v = PyVal.other) := by
    intro v e h
    cases v with
    | none => exact absurd h (by simp [_flatten_breaks])
    | num x =>
      simp only [_flatten_breaks] at h
      by_cases hx : x = PFloat.nan
      · rw [if_pos hx] at h
        exact absurd h (by simp)
      · rw [if_neg hx] at h
        cases hlt : PFloat.lt x (PFloat.fin 0) with
        | true =>
          rw [if_pos hlt] at h
          exact Or.inl (Or.inl ((Except.error.injEq _ _).mp h).symm)
        | false =>
          rw [if_neg (by simp [hlt])] at h
          exact absurd h (by simp)
    | bool b => exact absurd h (by simp [_flatten_breaks])
    | str s =>
      simp only [_flatten_breaks] at h
      by_cases hc : pyStrip s = ""
      · rw [if_pos hc] at h
        exact absurd h (by simp)
      · rw [if_neg hc] at h
        rcases (convStrItems_cases _).2 e h with h1 | h1
        · exact Or.inl (Or.inl h1)
        · exact Or.inl (Or.inr (Or.inl h1))
    | list xs =>
      simp only [_flatten_breaks] at h
      rcases (convCollItems_cases xs).2 e h with h1 | h1 | h1
      · exact Or.inl (Or.inl h1)
      · exact Or.inl (Or.inr (Or.inl h1))
      · exact Or.inl (Or.inr (Or.inr h1))
    | other =>
      simp only [_flatten_breaks] at h
      exact Or.inr ⟨((Except.error.injEq _ _).mp h).symm, rfl⟩
  refine ⟨?_, ?_, ?_, ?_, ?_, ?_, ?_, ?_⟩
  · intro v
    constructor
    · intro h
      rcases herr v _ h with h1 | h1
      · rcases h1 with h1 | h1 | h1 <;> cases h1
      · exact h1.2
    · intro hv
      rw [hv]
      rfl
  · intro v l h x hx
    cases v with
    | none =>
      simp only [_flatten_breaks] at h
      cases h
      cases hx
    | num x2 =>
      simp only [_flatten_breaks] at h
      by_cases hx2 : x2 = PFloat.nan
      · rw [if_pos hx2] at h
        cases h
        cases hx
      · rw [if_neg hx2] at h
        cases hlt : PFloat.lt x2 (PFloat.fin 0) with
        | true => rw [if_pos hlt] at h; exact absurd h (by simp)
        | false =>
          rw [if_neg (by simp [hlt])] at h
          cases h
          rcases List.mem_singleton.mp hx with h1
          rw [h1]
          exact hlt
    | bool b =>
      simp only [_flatten_breaks] at h
      cases h
      rcases List.mem_singleton.mp hx with h1
      rw [h1]
      cases b <;> decide
    | str s =>
      simp only [_flatten_breaks] at h
      by_cases hc : pyStrip s = ""
      · rw [if_pos hc] at h
        cases h
        cases hx
      · rw [if_neg hc] at h
        exact (convStrItems_cases _).1 l h x hx
    | list xs =>
      simp only [_flatten_breaks] at h
      exact (convCollItems_cases xs).1 l h x hx
    | other => exact absurd h (by simp [_flatten_breaks])
  · intro v e h
    rcases herr v e h with h1 | h1
    · rcases h1 with h1 | h1 | h1
      · exact Or.inl h1
      · exact Or.inr (Or.inr (Or.inl h1))
      · exact Or.inr (Or.inr (Or.inr h1))
    · exact Or.inr (Or.inl h1.1)
  · intro x hnan hneg
    simp only [_flatten_breaks]
    rw [if_neg hnan, if_pos hneg]
  · intro pre it post cand hpre hit hneg
    show convCollItems (pre ++ it :: post) = _
    exact convCollItems_neg pre it post cand hpre hit hneg
  · intro s hs
    exact flatten_str_items s hs
  · exact convStrItems_neg
  · exact ⟨by with_unfolding_all rfl, by with_unfolding_all rfl,
      by with_unfolding_all rfl, by with_unfolding_all rfl, by with_unfolding_all rfl⟩

/-- Witness for C5: the unparseable break string "abc" instantiates the
error classification, and a collection whose second element is negative
after a non-negative first element instantiates the negative-stage path. -/
theorem c5_flatten_error_classification_witness :
    (Err.py PyErr.valueError = Err.validation VErr.negBreak ∨
     Err.py PyErr.valueError = Err.validation VErr.unsupportedBreak ∨
     Err.py PyErr.valueError = Err.py PyErr.valueError ∨
     Err.py PyErr.valueError = Err.py PyErr.typeError) ∧
    _flatten_breaks (PyVal.list [PyVal.num (PFloat.fin 1), PyVal.num (PFloat.fin (-3))]) =
      Except.error (Err.validation VErr.negBreak) := by
  constructor
  · exact c5_flatten_error_classification.2.2.1 (PyVal.str "abc")
      (Err.py PyErr.valueError) (by with_unfolding_all rfl)
  · have h := c5_flatten_error_classification.2.2.2.2.1
      [PyVal.num (PFloat.fin 1)] (PyVal.num (PFloat.fin (-3))) [] (PFloat.fin (-3))
      (fun j hj => by
        rw [List.mem_singleton] at hj
        subst hj
        exact ⟨PFloat.fin 1, rfl, by decide⟩)
      rfl (by decide)
    exact h

/-- C6: when any required raw column is absent, `calc_work_hours` fails the
whole batch with one validation error naming exactly the missing columns in
sorted order, independent of the rows (so before any row is processed). -/
theorem c6_missing_columns_batch :
    (∀ (cols : List String) (rows rows2 : List RawRow),
      requiredRawSorted.filter (fun c => decide (c ∉ cols)) ≠ [] →
      calc_work_hours ⟨cols, rows⟩ =
        Except.error (Err.validation (VErr.missingColumns
          (requiredRawSorted.filter (fun c => decide (c ∉ cols))))) ∧
      calc_work_hours ⟨cols, rows⟩ = calc_work_hours ⟨cols, rows2⟩) ∧
    (∀ (cols : List String) (c : String),
      c ∈ requiredRawSorted.filter (fun c => decide (c ∉ cols)) ↔
        (c ∈ requiredRawSorted ∧ c ∉ cols)) := by
  refine ⟨?_, ?_⟩
  · intro cols rows rows2 hm
    have hcalc : ∀ rs : List RawRow, calc_work_hours ⟨cols, rs⟩ =
        Except.error (Err.validation (VErr.missingColumns
          (requiredRawSorted.filter (fun c => decide (c ∉ cols))))) := by
      intro rs
      unfold calc_work_hours
      rw [if_pos hm]
    exact ⟨hcalc rows, (hcalc rows).trans (hcalc rows2).symm⟩
  · intro cols c
    simp [List.mem_filter]

/-- Witness for C6 with only the date column present. -/
theorem c6_missing_columns_batch_witness :
    calc_work_hours ⟨["date"], []⟩ =
      Except.error (Err.validation (VErr.missingColumns
        (requiredRawSorted.filter (fun c => decide (c ∉ ["date"]))))) ∧
    calc_work_hours ⟨["date"], []⟩ = calc_work_hours ⟨["date"], [nightRow]⟩ :=
  c6_missing_columns_batch.1 ["date"] [] [nightRow] (by decide)

/-- C7 counterexample: the fully empty DataFrame (no columns, no rows) is
an empty input collection on which `calc_work_hours` and
`build_daily_summary` (and hence the weekly/monthly builders) raise the
missing-columns validation error instead of returning an empty result. -/
theorem c7_counterexample_empty_frame :
    calc_work_hours ⟨[], []⟩ =
      Except.error (Err.validation (VErr.missingColumns requiredRawSorted)) ∧
    build_daily_summary ⟨[], []⟩ =
      Except.error (Err.validation (VErr.missingRecordColumns dailyCols)) ∧
    build_weekly_summary ⟨[], []⟩ =
      Except.error (Err.validation (VErr.missingRecordColumns dailyCols)) ∧
    build_monthly_summary ⟨[], []⟩ =
      Except.error (Err.validation (VErr.missingRecordColumns dailyCols)) :=
  ⟨by decide, by decide, by decide, by decide⟩

/-- C7 (amended): for every empty input collection that carries the
function's required columns, `calc_work_hours`, `build_daily_summary`,
`build_weekly_summary` and `build_monthly_summary` return an empty
collection with their fixed output column set and never raise an error;
an empty collection lacking required columns instead fails the
missing-columns check. -/
theorem c7_empty_input :
    (∀ cols : List String, (∀ c ∈ requiredRawSorted, c ∈ cols) →
      calc_work_hours ⟨cols, []⟩ = Except.ok ⟨dailyCols, []⟩) ∧
    (∀ cols : List String, (∀ c ∈ dailyCols, c ∈ cols) →
      build_daily_summary ⟨cols, []⟩ = Except.ok ⟨dailyCols, []⟩ ∧
      build_weekly_summary ⟨cols, []⟩ = Except.ok ⟨weeklyCols, []⟩ ∧
      build_monthly_summary ⟨cols, []⟩ = Except.ok ⟨monthlyCols, []⟩) := by
  constructor
  · intro cols hsub
    have hm : requiredRawSorted.filter (fun c => decide (c ∉ cols)) = [] := by
      rw [List.filter_eq_nil_iff]
      intro c hc
      simp [hsub c hc]
    unfold calc_work_hours
    rw [if_neg (fun hcon => hcon hm)]
    rfl
  · intro cols hsub
    have hm : dailyCols.filter (fun c => decide (c ∉ cols)) = [] := by
      rw [List.filter_eq_nil_iff]
      intro c hc
      simp [hsub c hc]
    have hd : build_daily_summary ⟨cols, []⟩ = Except.ok ⟨dailyCols, []⟩ := by
      unfold build_daily_summary
      rw [if_neg (fun hcon => hcon hm)]
      rfl
    refine ⟨hd, ?_, ?_⟩
    · unfold build_weekly_summary
      simp only [hd]
      rfl
    · unfold build_monthly_summary
      simp only [hd]
      rfl

/-- Witness for C7 at the canonical raw and daily column lists. -/
theorem c7_empty_input_witness :
    calc_work_hours ⟨rawCols, []⟩ = Except.ok ⟨dailyCols, []⟩ ∧
    build_daily_summary ⟨dailyCols, []⟩ = Except.ok ⟨dailyCols, []⟩ ∧
    build_weekly_summary ⟨dailyCols, []⟩ = Except.ok ⟨weeklyCols, []⟩ ∧
    build_monthly_summary ⟨dailyCols, []⟩ = Except.ok ⟨monthlyCols, []⟩ := by
  have h1 := c7_empty_input.1 rawCols (by decide)
  have h2 := c7_empty_input.2 dailyCols (by decide)
  exact ⟨h1, h2.1, h2.2.1, h2.2.2⟩

/-- C9: the three aggregation functions are deterministic and side-effect
free: over any sequence of calls, each call's output depends only on the
function called and the input value (not on the position or number of
calls), the input collection threaded through the session is left
unmodified, and value-identical inputs give value-identical outputs. -/
theorem c9_builders_deterministic :
    (∀ (f : Frame DRow) (calls : List BuilderCall),
      (runSession f calls).2 = f ∧
      (runSession f calls).1 = calls.map (fun c => runBuilder c f)) ∧
    (∀ f g : Frame DRow, f = g →
      build_daily_summary f = build_daily_summary g ∧
      build_weekly_summary f = build_weekly_summary g ∧
      build_monthly_summary f = build_monthly_summary g) := by
  constructor
  · intro f calls
    induction calls with
    | nil => exact ⟨rfl, rfl⟩
    | cons c cs ih =>
      refine ⟨?_, ?_⟩
      · show (runSession f cs).2 = f
        exact ih.1
      · show runBuilder c f :: (runSession f cs).1 = _
        rw [ih.2, List.map_cons]
  · intro f g h
    subst h
    exact ⟨rfl, rfl, rfl⟩

/-- Witness for C9 at a pair of value-identical empty frames. -/
theorem c9_builders_deterministic_witness :
    build_daily_summary ⟨dailyCols, []⟩ = build_daily_summary ⟨dailyCols, []⟩ ∧
    build_weekly_summary ⟨dailyCols, []⟩ = build_weekly_summary ⟨dailyCols, []⟩ ∧
    build_monthly_summary ⟨dailyCols, []⟩ = build_monthly_summary ⟨dailyCols, []⟩ :=
  c9_builders_deterministic.2 ⟨dailyCols, []⟩ ⟨dailyCols, []⟩ rfl

/-- C10: an empty or whitespace-only `breaks` string normalizes to the
empty break list - no error and no zero entry - so such a row contributes
a `break_total` of 0 and a `work_hours` equal to the bare interval plus
overtime. -/
theorem c10_blank_breaks_empty :
    _flatten_breaks (PyVal.str "") = Except.ok [] ∧
    _flatten_breaks (PyVal.str "   ") = Except.ok [] ∧
    pySum [] = PFloat.fin 0 ∧
    (calcRow { date := "01/07/2024", employee_id := "E005", name := "Eve",
               shift_label := Option.none, clock_in := "09:00", clock_out := "17:00",
               breaks := PyVal.str "   ", ot_hours := PyVal.num (PFloat.fin 0) }).map
      (fun r => (r.break_total, r.work_hours)) =
      Except.ok (PFloat.fin 0, PFloat.fin 8) :=
  ⟨by with_unfolding_all rfl, by with_unfolding_all rfl, rfl, by with_unfolding_all rfl⟩

theorem build_daily_ok_inv (f : Frame DRow) (out : Frame CRow)
    (h : build_daily_summary f = Except.ok out) :
    ∃ converted, exMapM dailyRow f.rows = Except.ok converted ∧
      out = ⟨dailyCols, List.insertionSort crLe converted⟩ := by
  unfold build_daily_summary at h
  by_cases hm : dailyCols.filter (fun c => decide (c ∉ f.cols)) ≠ []
  · rw [if_pos hm] at h
    exact absurd h (by simp)
  · rw [if_neg hm] at h
    cases hmap : exMapM dailyRow f.rows with
    | error e => simp only [hmap] at h; exact absurd h (by simp)
    | ok converted =>
      simp only [hmap] at h
      cases h
      exact ⟨converted, rfl, rfl⟩

theorem dailyRow_ok_shape (r : DRow) (c : CRow) (h : dailyRow r = Except.ok c) :
    c.employee_id = pyStrip r.employee_id ∧ c.name = pyStrip r.name := by
  unfold dailyRow at h
  cases h1 : dateToOrd r.date with
  | error e => simp only [h1] at h; exact absurd h (by simp)
  | ok z =>
  simp only [h1] at h
  cases h2 : numToFloat r.break_total with
  | error e => simp only [h2] at h; exact absurd h (by simp)
  | ok bt =>
  simp only [h2] at h
  cases h3 : numToFloat r.ot_hours with
  | error e => simp only [h3] at h; exact absurd h (by simp)
  | ok ot =>
  simp only [h3] at h
  cases h4 : numToFloat r.work_hours with
  | error e => simp only [h4] at h; exact absurd h (by simp)
  | ok wh =>
  simp only [h4, Except.ok.injEq] at h
  rw [← h]
  exact ⟨rfl, rfl⟩

theorem dailyRow_embed (c : CRow)
    (h1 : pyStrip c.employee_id = c.employee_id)
    (h2 : pyStrip c.name = c.name) :
    dailyRow (embedRow c) = Except.ok c := by
  show Except.ok
    ({ date := c.date
       employee_id := pyStrip c.employee_id
       name := pyStrip c.name
       shift_label := c.shift_label
       clock_in := c.clock_in
       clock_out := c.clock_out
       break_total := c.break_total
       ot_hours := c.ot_hours
       work_hours := c.work_hours } : CRow) = Except.ok c
  rw [h1, h2]

theorem exMapM_map_fix {α β : Type} (f : β → Except Err α) (g : α → β) :
    ∀ l : List α, (∀ x ∈ l, f (g x) = Except.ok x) →
      exMapM f (l.map g) = Except.ok l := by
  intro l
  induction l with
  | nil => intro _; rfl
  | cons x xs ih =>
    intro h
    rw [List.map_cons]
    unfold exMapM
    rw [h x (List.mem_cons_self x xs), ih (fun y hy => h y (List.mem_cons_of_mem x hy))]

/-- C8: `build_daily_summary` is idempotent: whenever it succeeds, running
it again on its own output (injected back through the output schema)
returns that output unchanged. -/
theorem c8_daily_summary_idempotent :
    ∀ (f : Frame DRow) (out : Frame CRow),
      build_daily_summary f = Except.ok out →
      build_daily_summary (embedFrame out) = Except.ok out := by
  intro f out h
  rcases build_daily_ok_inv f out h with ⟨converted, hmap, hout⟩
  have hcanon : ∀ c ∈ out.rows, dailyRow (embedRow c) = Except.ok c := by
    intro c hc
    have hc2 : c ∈ converted := by
      rw [hout] at hc
      exact (List.perm_insertionSort crLe converted).mem_iff.mp hc
    rcases exMapM_ok_mem dailyRow f.rows converted hmap c hc2 with ⟨r, _, hr⟩
    rcases dailyRow_ok_shape r c hr with ⟨h1, h2⟩
    exact dailyRow_embed c (by rw [h1, pyStrip_idem]) (by rw [h2, pyStrip_idem])
  have hsorted : List.Sorted crLe out.rows := by
    rw [hout]
    exact List.sorted_insertionSort crLe converted
  have hcols : out.cols = dailyCols := by rw [hout]
  have hrows : (embedFrame out).rows = out.rows.map embedRow := rfl
  have hm : dailyCols.filter (fun c => decide (c ∉ (embedFrame out).cols)) = [] := by
    show dailyCols.filter (fun c => decide (c ∉ out.cols)) = []
    rw [hcols]
    decide
  have hmap2 : exMapM dailyRow (embedFrame out).rows = Except.ok out.rows := by
    rw [hrows]
    exact exMapM_map_fix dailyRow embedRow out.rows hcanon
  have hrun : build_daily_summary (embedFrame out) =
      Except.ok ⟨dailyCols, List.insertionSort crLe out.rows⟩ := by
    unfold build_daily_summary
    rw [if_neg (fun hcon => hcon hm)]
    simp only [hmap2]
  rw [hrun, List.Sorted.insertionSort_eq hsorted, hout]

/-- A stored daily row with a string date and a string numeric cell. -/
def exDR1 : DRow :=
  { date := DateVal.str "02/07/2024"
    employee_id := " E007 "
    name := "Grace"
    shift_label := Option.some "Day"
    clock_in := "09:00"
    clock_out := "17:00"
    break_total := NumVal.str "0.5"
    ot_hours := NumVal.num (PFloat.fin 0)
    work_hours := NumVal.num (PFloat.fin (15/2 : ℚ)) }

/-- The canonical daily row `build_daily_summary` produces for `exDR1`. -/
def exCR1 : CRow :=
  { date := 739069
    employee_id := "E007"
    name := "Grace"
    shift_label := Option.some "Day"
    clock_in := "09:00"
    clock_out := "17:00"
    break_total := PFloat.fin (1/2 : ℚ)
    ot_hours := PFloat.fin 0
    work_hours := PFloat.fin (15/2 : ℚ) }

/-- Witness for C8 at a one-row frame. -/
theorem c8_daily_summary_idempotent_witness :
    build_daily_summary (embedFrame ⟨dailyCols, [exCR1]⟩) =
      Except.ok ⟨dailyCols, [exCR1]⟩ :=
  c8_daily_summary_idempotent ⟨dailyCols, [exDR1]⟩ ⟨dailyCols, [exCR1]⟩
    (by with_unfolding_all rfl)

theorem build_weekly_ok_inv (records : Frame DRow) (out : Frame WRow)
    (h : build_weekly_summary records = Except.ok out) :
    ∃ daily, build_daily_summary records = Except.ok daily ∧
      out = ⟨weeklyCols,
        List.insertionSort wrLe ((groupBy wkey daily.rows).map renderW)⟩ := by
  unfold build_weekly_summary at h
  cases hd : build_daily_summary records with
  | error e => simp only [hd] at h; exact absurd h (by simp)
  | ok daily =>
    simp only [hd] at h
    refine ⟨daily, rfl, ?_⟩
    by_cases hnil : daily.rows = []
    · rw [if_pos hnil] at h
      cases h
      rw [hnil]
      rfl
    · rw [if_neg hnil] at h
      cases h
      rfl

theorem wkeyOut_renderW (e : (ℤ × ℤ × String × String) × GAcc) :
    wkeyOut (renderW e) = e.1 := rfl

/-- A second stored daily row for the same employee, next calendar day. -/
def exDR2 : DRow :=
  { date := DateVal.str "03/07/2024"
    employee_id := "E007"
    name := "Grace"
    shift_label := Option.some "Day"
    clock_in := "09:00"
    clock_out := "18:00"
    break_total := NumVal.num (PFloat.fin 1)
    ot_hours := NumVal.num (PFloat.fin 1)
    work_hours := NumVal.num (PFloat.fin 8) }

/-- The canonical daily row for `exDR2`. -/
def exCR2 : CRow :=
  { date := 739070
    employee_id := "E007"
    name := "Grace"
    shift_label := Option.some "Day"
    clock_in := "09:00"
    clock_out := "18:00"
    break_total := PFloat.fin 1
    ot_hours := PFloat.fin 1
    work_hours := PFloat.fin 8 }

/-- The single weekly row summarizing `exDR1` and `exDR2`. -/
def exWR : WRow :=
  { week_start := 739068
    week_end := 739074
    employee_id := "E007"
    name := "Grace"
    work_hours_total := PFloat.fin (31/2 : ℚ)
    ot_total := PFloat.fin 1
    days_present := 2 }

/-- C3: `build_weekly_summary` groups the daily records by
`(week_start, week_end, employee_id, name)` with `week_start` the
Monday anchor `date - date.weekday()` and `week_end = week_start + 6`;
each group appears exactly once; totals are the rounded running sums of
the group's `work_hours` and `ot_hours`; `days_present` counts the
distinct calendar dates of the group; rows come out sorted by
`(week_start, employee_id)`; and two same-employee records on distinct
dates of one week yield a single row with summed totals and
`days_present = 2`. -/
theorem c3_weekly_grouping :
    (∀ (records : Frame DRow) (daily : Frame CRow) (out : Frame WRow),
      build_daily_summary records = Except.ok daily →
      build_weekly_summary records = Except.ok out →
      out.cols = weeklyCols ∧
      (out.rows.map wkeyOut).Nodup ∧
      (∀ k, k ∈ out.rows.map wkeyOut ↔ ∃ r ∈ daily.rows, wkey r = k) ∧
      List.Sorted wrLe out.rows ∧
      (∀ w ∈ out.rows,
        w.week_end = w.week_start + 6 ∧
        (∃ r ∈ daily.rows, wkey r = wkeyOut w) ∧
        (∀ r ∈ daily.rows, wkey r = wkeyOut w →
          w.week_start = r.date - (r.date + 6) % 7) ∧
        w.work_hours_total = pround2 ((daily.rows.filter
            (fun r => decide (wkey r = wkeyOut w))).foldl
            (fun s r => PFloat.add s r.work_hours) (PFloat.fin 0)) ∧
        w.ot_total = pround2 ((daily.rows.filter
            (fun r => decide (wkey r = wkeyOut w))).foldl
            (fun s r => PFloat.add s r.ot_hours) (PFloat.fin 0)) ∧
        w.days_present = (((daily.rows.filter
            (fun r => decide (wkey r = wkeyOut w))).map CRow.date).toFinset).card)) ∧
    build_weekly_summary ⟨dailyCols, [exDR1, exDR2]⟩ =
      Except.ok ⟨weeklyCols, [exWR]⟩ := by
  constructor
  · intro records daily out hd hw
    rcases build_weekly_ok_inv records out hw with ⟨daily2, hd2, hout⟩
    rw [hd] at hd2
    have hdd : daily2 = daily := (Except.ok.injEq _ _).mp hd2.symm
    subst hdd
    have hG : groupBy wkey daily2.rows =
        (firstKeys wkey daily2.rows).map
          (fun k => (k, groupAcc wkey daily2.rows k)) := groupBy_eq wkey daily2.rows
    have hkeys : (((groupBy wkey daily2.rows).map renderW).map wkeyOut) =
        firstKeys wkey daily2.rows := by
      rw [hG, List.map_map, List.map_map,
        show ((wkeyOut ∘ renderW) ∘ fun k => (k, groupAcc wkey daily2.rows k)) = id from
          funext (fun k => rfl),
        List.map_id]
    have hperm : out.rows.Perm ((groupBy wkey daily2.rows).map renderW) := by
      rw [hout]
      exact List.perm_insertionSort wrLe _
    refine ⟨by rw [hout], ?_, ?_, ?_, ?_⟩
    · have h2 : (out.rows.map wkeyOut).Perm
          (((groupBy wkey daily2.rows).map renderW).map wkeyOut) := hperm.map wkeyOut
      rw [hkeys] at h2
      exact h2.nodup_iff.mpr (firstKeys_nodup wkey daily2.rows)
    · intro k
      have h2 : (out.rows.map wkeyOut).Perm
          (((groupBy wkey daily2.rows).map renderW).map wkeyOut) := hperm.map wkeyOut
      rw [hkeys] at h2
      rw [h2.mem_iff]
      exact mem_firstKeys wkey daily2.rows k
    · rw [hout]
      exact List.sorted_insertionSort wrLe _
    · intro w hwmem
      have hw2 : w ∈ (groupBy wkey daily2.rows).map renderW := hperm.mem_iff.mp hwmem
      rcases List.mem_map.mp hw2 with ⟨e, heG, hew⟩
      rw [hG] at heG
      rcases List.mem_map.mp heG with ⟨k, hkmem, hke⟩
      have hkw : wkeyOut w = k := by
        rw [← hew, ← hke, wkeyOut_renderW]
      rcases (mem_firstKeys wkey daily2.rows k).mp hkmem with ⟨r0, hr0, hkr0⟩
      have hk16 : k.2.1 = k.1 + 6 := by
        rw [← hkr0]
        rfl
      have hws : w.week_start = k.1 := by rw [← hew, ← hke]; rfl
      have hwe : w.week_end = k.2.1 := by rw [← hew, ← hke]; rfl
      refine ⟨by rw [hws, hwe, hk16], ⟨r0, hr0, by rw [hkw]; exact hkr0⟩, ?_, ?_, ?_, ?_⟩
      · intro r hr hkr
        rw [hkw] at hkr
        rw [hws, ← hkr]
        rfl
      · rw [hkw, ← hew, ← hke]
        show pround2 (groupAcc wkey daily2.rows k).wht = _
        rw [groupAcc_wht]
      · rw [hkw, ← hew, ← hke]
        show pround2 (groupAcc wkey daily2.rows k).ott = _
        rw [groupAcc_ott]
      · rw [hkw, ← hew, ← hke]
        show (groupAcc wkey daily2.rows k).days.length = _
        rw [groupAcc_days_card]
  · with_unfolding_all rfl

/-- Witness for C3 at the two-day example frame. -/
theorem c3_weekly_grouping_witness :
    (⟨weeklyCols, [exWR]⟩ : Frame WRow).cols = weeklyCols ∧
    List.Sorted wrLe (⟨weeklyCols, [exWR]⟩ : Frame WRow).rows := by
  have h := c3_weekly_grouping.1 ⟨dailyCols, [exDR1, exDR2]⟩
    ⟨dailyCols, [exCR1, exCR2]⟩ ⟨weeklyCols, [exWR]⟩
    (by with_unfolding_all rfl) (by with_unfolding_all rfl)
  exact ⟨h.1, h.2.2.2.1⟩
